import Mathlib

/-!
Verification development for the dockermatrix build-matrix tool.

The Python source (dockermatrix.py) is shallowly embedded here:

* the semver library functions it relies on (`parse_version_info`,
  `format_version`, `compare`, `max_ver`, as in python-semver 2.7.x) are
  modelled as pure functions on a `VersionInfo` structure;
* the monkey-patched alias-label formatters (`__semver_format_major_version`,
  `__semver_format_minor_version`) become `format_major_version` /
  `format_minor_version`;
* `BuildMatrix.__init__`'s `latest` computation is a fold over the build
  list with a string-keyed association list standing in for the Python
  dict (insertion-ordered, in-place update), followed by the "rehash"
  inversion step;
* Python `set`s of strings are modelled as `Finset String` (strings have
  structural equality in Python), while sets of `ImageBuild` objects are
  modelled as lists, because `ImageBuild` defines no `__eq__`/`__hash__`
  and therefore has identity-based set membership: every constructed
  object is a fresh member, so iteration over such a set is iteration
  over the insertion list in some order;
* exceptions are modelled with `Option`/`Except`.
-/

namespace Dockermatrix

/-! ### Decimal numerals: model of Python `"%d" % n` and of `int()` on digit strings -/

def digitChar (n : Nat) : Char := Char.ofNat (48 + n)

def natToDigitsFuel : Nat → Nat → List Char
  | 0, _ => []
  | fuel + 1, n =>
    if n < 10 then [digitChar n]
    else natToDigitsFuel fuel (n / 10) ++ [digitChar (n % 10)]

/-- Decimal digits of a natural number, most significant first (Python `"%d"`). -/
def natToDigits (n : Nat) : List Char := natToDigitsFuel (n + 1) n

def natToString (n : Nat) : String := String.mk (natToDigits n)

def digitVal (c : Char) : Nat := c.toNat - 48

/-- Value of a digit string (Python `int()` on a string of digits). -/
def digitsToNat (cs : List Char) : Nat := cs.foldl (fun acc c => acc * 10 + digitVal c) 0

def isDigitChar (c : Char) : Bool := 48 ≤ c.toNat && c.toNat ≤ 57

def isNzDigitChar (c : Char) : Bool := 49 ≤ c.toNat && c.toNat ≤ 57

/-- The regex `0|[1-9][0-9]*` used by python-semver for major/minor/patch. -/
def isCanonNum : List Char → Bool
  | [] => false
  | [c] => isDigitChar c
  | c :: rest => isNzDigitChar c && rest.all isDigitChar

/-- The character class `[0-9A-Za-z-]` of python-semver's prerelease/build chunks. -/
def isIdentChar (c : Char) : Bool :=
  isDigitChar c || (65 ≤ c.toNat && c.toNat ≤ 90) || (97 ≤ c.toNat && c.toNat ≤ 122) || c = '-'

theorem natToDigitsFuel_irrel : ∀ f₁ f₂ n, n < f₁ → n < f₂ →
    natToDigitsFuel f₁ n = natToDigitsFuel f₂ n := by
  intro f₁
  induction f₁ with
  | zero => intro f₂ n h; omega
  | succ f₁' ih =>
    intro f₂ n h₁ h₂
    match f₂ with
    | 0 => omega
    | f₂' + 1 =>
      show natToDigitsFuel (f₁' + 1) n = natToDigitsFuel (f₂' + 1) n
      unfold natToDigitsFuel
      by_cases hn : n < 10
      · simp [hn]
      · simp only [hn, if_false]
        have hd : n / 10 < n := Nat.div_lt_self (by omega) (by omega)
        rw [ih f₂' (n / 10) (by omega) (by omega)]

theorem natToDigits_unfold (n : Nat) :
    natToDigits n = if n < 10 then [digitChar n] else natToDigits (n / 10) ++ [digitChar (n % 10)] := by
  by_cases hn : n < 10
  · simp [natToDigits, natToDigitsFuel, hn]
  · have hd : n / 10 < n := Nat.div_lt_self (by omega) (by omega)
    show natToDigitsFuel (n + 1) n = _
    conv_lhs => unfold natToDigitsFuel
    simp only [hn, if_false]
    rw [natToDigitsFuel_irrel n (n / 10 + 1) (n / 10) (by omega) (by omega)]
    rfl

theorem natToDigits_ne_nil (n : Nat) : natToDigits n ≠ [] := by
  induction n using Nat.strong_induction_on with
  | _ n ih =>
    rw [natToDigits_unfold]
    by_cases hn : n < 10
    · simp [hn]
    · simp only [hn, if_false]
      intro h
      exact absurd (List.append_eq_nil.mp h).2 (by simp)

theorem digitChar_isDigit {n : Nat} (h : n < 10) : isDigitChar (digitChar n) = true := by
  interval_cases n <;> decide

theorem natToDigits_all_digit (n : Nat) : ∀ c ∈ natToDigits n, isDigitChar c = true := by
  induction n using Nat.strong_induction_on with
  | _ n ih =>
    rw [natToDigits_unfold]
    by_cases hn : n < 10
    · simp only [hn, if_true, List.mem_singleton]
      intro c hc; subst hc; exact digitChar_isDigit hn
    · simp only [hn, if_false]
      intro c hc
      rcases List.mem_append.mp hc with h | h
      · exact ih (n / 10) (Nat.div_lt_self (by omega) (by omega)) c h
      · rcases List.mem_singleton.mp h with rfl
        exact digitChar_isDigit (Nat.mod_lt _ (by omega))

theorem natToDigits_head_nz (n : Nat) (hn : 1 ≤ n) :
    ∀ c cs, natToDigits n = c :: cs → isNzDigitChar c = true := by
  induction n using Nat.strong_induction_on with
  | _ n ih =>
    rw [natToDigits_unfold]
    by_cases h10 : n < 10
    · simp only [h10, if_true]
      intro c cs h
      cases h
      interval_cases n <;> decide
    · simp only [h10, if_false]
      intro c cs h
      have hne := natToDigits_ne_nil (n / 10)
      match hd : natToDigits (n / 10) with
      | [] => exact absurd hd hne
      | c' :: cs' =>
        rw [hd] at h
        have : c' = c := by simpa using congrArg (·.head?) h
        subst this
        exact ih (n / 10) (Nat.div_lt_self (by omega) (by omega))
          (Nat.le_div_iff_mul_le (by omega) |>.mpr (by omega)) c' cs' hd

theorem isCanonNum_natToDigits (n : Nat) : isCanonNum (natToDigits n) = true := by
  by_cases hn : n < 10
  · rw [natToDigits_unfold]
    simp only [hn, if_true]
    show isDigitChar (digitChar n) = true
    exact digitChar_isDigit hn
  · match hd : natToDigits n with
    | [] => exact absurd hd (natToDigits_ne_nil n)
    | [c] =>
      show isDigitChar c = true
      exact natToDigits_all_digit n c (hd ▸ List.mem_singleton_self c)
    | c :: c' :: rest =>
      show (isNzDigitChar c && (c' :: rest).all isDigitChar) = true
      simp only [Bool.and_eq_true]
      refine ⟨natToDigits_head_nz n (by omega) c (c' :: rest) hd, ?_⟩
      refine List.all_eq_true.mpr fun x hx => natToDigits_all_digit n x ?_
      rw [hd]; exact List.mem_cons_of_mem c hx

theorem digitsToNat_append (xs : List Char) (c : Char) :
    digitsToNat (xs ++ [c]) = digitsToNat xs * 10 + digitVal c := by
  unfold digitsToNat
  rw [List.foldl_append]
  rfl

theorem digitVal_digitChar {n : Nat} (h : n < 10) : digitVal (digitChar n) = n := by
  interval_cases n <;> decide

theorem digitsToNat_natToDigits (n : Nat) : digitsToNat (natToDigits n) = n := by
  induction n using Nat.strong_induction_on with
  | _ n ih =>
    rw [natToDigits_unfold]
    by_cases hn : n < 10
    · simp only [hn, if_true]
      show 0 * 10 + digitVal (digitChar n) = n
      rw [digitVal_digitChar hn]; omega
    · simp only [hn, if_false]
      rw [digitsToNat_append, ih (n / 10) (Nat.div_lt_self (by omega) (by omega)),
        digitVal_digitChar (Nat.mod_lt _ (by omega))]
      omega

theorem digitsToNat_pos {c : Char} {cs : List Char} (h : isNzDigitChar c = true) :
    1 ≤ digitsToNat (c :: cs) := by
  have h1 : 1 ≤ digitVal c := by
    simp only [isNzDigitChar, Bool.and_eq_true, decide_eq_true_eq] at h
    unfold digitVal; omega
  show 1 ≤ List.foldl (fun acc c => acc * 10 + digitVal c) (0 * 10 + digitVal c) cs
  have mono : ∀ (l : List Char) (a : Nat), a ≤ List.foldl (fun acc c => acc * 10 + digitVal c) a l := by
    intro l
    induction l with
    | nil => intro a; exact Nat.le_refl a
    | cons x xs ihl =>
      intro a
      calc a ≤ a * 10 + digitVal x := by omega
        _ ≤ _ := ihl (a * 10 + digitVal x)
  calc 1 ≤ 0 * 10 + digitVal c := by omega
    _ ≤ _ := mono cs _

theorem ofNat_digitVal {c : Char} (h : isDigitChar c = true) :
    digitChar (digitVal c) = c := by
  simp only [isDigitChar, Bool.and_eq_true, decide_eq_true_eq] at h
  unfold digitChar digitVal
  rw [show 48 + (c.toNat - 48) = c.toNat by omega]
  exact Char.ofNat_toNat c

theorem natToDigits_digitsToNat : ∀ cs, isCanonNum cs = true →
    natToDigits (digitsToNat cs) = cs := by
  intro cs
  induction cs using List.reverseRecOn with
  | nil => intro h; exact absurd h (by decide)
  | append_singleton ds c ihd =>
    intro h
    match ds with
    | [] =>
      have hc : isDigitChar c = true := h
      have hval : digitVal c < 10 := by
        simp only [isDigitChar, Bool.and_eq_true, decide_eq_true_eq] at hc
        unfold digitVal; omega
      show natToDigits (digitsToNat [c]) = [c]
      have : digitsToNat [c] = digitVal c := by
        show 0 * 10 + digitVal c = digitVal c; omega
      rw [this, natToDigits_unfold]
      simp only [hval, if_true]
      rw [ofNat_digitVal hc]
    | d :: ds' =>
      -- multi-character numeral: leading non-zero digit, all digits
      have hshape : isNzDigitChar d = true ∧ ∀ x ∈ ds' ++ [c], isDigitChar x = true := by
        have : isCanonNum (d :: (ds' ++ [c])) = true := by simpa using h
        match hmatch : ds' ++ [c] with
        | [] => exact absurd hmatch (by simp)
        | y :: ys =>
          rw [hmatch] at this
          have hparse : (isNzDigitChar d && (y :: ys).all isDigitChar) = true := this
          simp only [Bool.and_eq_true] at hparse
          exact ⟨hparse.1, fun x hx => List.all_eq_true.mp hparse.2 x (hmatch ▸ hx)⟩
      have hdsCanon : isCanonNum (d :: ds') = true := by
        match ds' with
        | [] =>
          show isDigitChar d = true
          simp only [isNzDigitChar, Bool.and_eq_true, decide_eq_true_eq] at hshape
          simp only [isDigitChar, Bool.and_eq_true, decide_eq_true_eq]
          omega
        | e :: es =>
          show (isNzDigitChar d && (e :: es).all isDigitChar) = true
          simp only [Bool.and_eq_true]
          refine ⟨hshape.1, List.all_eq_true.mpr fun x hx => ?_⟩
          exact hshape.2 x (List.mem_append_left [c] hx)
      have hc : isDigitChar c = true := hshape.2 c (by simp)
      have hcval : digitVal c < 10 := by
        simp only [isDigitChar, Bool.and_eq_true, decide_eq_true_eq] at hc
        unfold digitVal; omega
      have hpos : 1 ≤ digitsToNat (d :: ds') := digitsToNat_pos hshape.1
      show natToDigits (digitsToNat ((d :: ds') ++ [c])) = (d :: ds') ++ [c]
      rw [digitsToNat_append]
      have hbig : ¬ (digitsToNat (d :: ds') * 10 + digitVal c < 10) := by omega
      rw [natToDigits_unfold]
      simp only [hbig, if_false]
      have hdiv : (digitsToNat (d :: ds') * 10 + digitVal c) / 10 = digitsToNat (d :: ds') := by
        omega
      have hmod : (digitsToNat (d :: ds') * 10 + digitVal c) % 10 = digitVal c := by
        omega
      rw [hdiv, hmod, ihd hdsCanon, ofNat_digitVal hc]

/-! ### Splitting characters lists (model of `str.split` and of regex group boundaries) -/

/-- Split at the first occurrence of `sep`; `none` when `sep` does not occur. -/
def splitAtChar (sep : Char) : List Char → Option (List Char × List Char)
  | [] => none
  | c :: cs =>
    if c = sep then some ([], cs)
    else (splitAtChar sep cs).map (fun p => (c :: p.1, p.2))

/-- Split on every occurrence of `sep` (Python `str.split(sep)`); never returns `[]`. -/
def splitOnChar (sep : Char) : List Char → List (List Char)
  | [] => [[]]
  | c :: cs =>
    if c = sep then [] :: splitOnChar sep cs
    else
      match splitOnChar sep cs with
      | [] => [[c]]
      | chunk :: rest => (c :: chunk) :: rest

def joinWith (sep : Char) : List (List Char) → List Char
  | [] => []
  | [x] => x
  | x :: xs => x ++ sep :: joinWith sep xs

theorem splitAtChar_of_not_mem {sep : Char} : ∀ {cs : List Char}, sep ∉ cs →
    splitAtChar sep cs = none := by
  intro cs
  induction cs with
  | nil => intro _; rfl
  | cons c cs ih =>
    intro h
    have hc : ¬ c = sep := fun he => h (he ▸ List.mem_cons_self c cs)
    simp only [splitAtChar, hc, if_false, ih (fun hm => h (List.mem_cons_of_mem c hm)),
      Option.map_none']

theorem splitAtChar_append {sep : Char} : ∀ {a : List Char} (b : List Char), sep ∉ a →
    splitAtChar sep (a ++ sep :: b) = some (a, b) := by
  intro a
  induction a with
  | nil => intro b _; simp [splitAtChar]
  | cons c cs ih =>
    intro b h
    have hc : ¬ c = sep := fun he => h (he ▸ List.mem_cons_self c cs)
    simp only [List.cons_append, splitAtChar, hc, if_false, List.append_eq,
      ih b (fun hm => h (List.mem_cons_of_mem c hm)), Option.map_some']

theorem splitAtChar_eq_some {sep : Char} : ∀ {cs a b : List Char},
    splitAtChar sep cs = some (a, b) → cs = a ++ sep :: b ∧ sep ∉ a := by
  intro cs
  induction cs with
  | nil => intro a b h; exact absurd h (by simp [splitAtChar])
  | cons c cs ih =>
    intro a b h
    by_cases hc : c = sep
    · subst hc
      simp only [splitAtChar, if_true] at h
      rcases h with ⟨rfl, rfl⟩
      exact ⟨rfl, List.not_mem_nil c⟩
    · simp only [splitAtChar, hc, if_false] at h
      match hsp : splitAtChar sep cs with
      | none => rw [hsp] at h; exact absurd h (by simp)
      | some p =>
        rw [hsp] at h
        simp only [Option.map_some', Option.some_inj] at h
        rcases ih hsp with ⟨hcs, hnm⟩
        injection h with ha hb
        subst ha; subst hb
        constructor
        · rw [List.cons_append, ← hcs]
        · intro hm
          rcases List.mem_cons.mp hm with he | hm2
          · exact hc he.symm
          · exact hnm hm2

theorem splitOnChar_ne_nil {sep : Char} : ∀ (cs : List Char), splitOnChar sep cs ≠ [] := by
  intro cs
  induction cs with
  | nil => simp [splitOnChar]
  | cons c cs ih =>
    by_cases hc : c = sep
    · simp [splitOnChar, hc]
    · simp only [splitOnChar, hc, if_false]
      match h : splitOnChar sep cs with
      | [] => simp
      | chunk :: rest => simp

theorem joinWith_splitOnChar {sep : Char} : ∀ (cs : List Char),
    joinWith sep (splitOnChar sep cs) = cs := by
  intro cs
  induction cs with
  | nil => rfl
  | cons c cs ih =>
    by_cases hc : c = sep
    · subst hc
      simp only [splitOnChar, if_true]
      match h : splitOnChar c cs with
      | [] => exact absurd h (splitOnChar_ne_nil cs)
      | chunk :: rest =>
        show c :: joinWith c (chunk :: rest) = c :: cs
        rw [← h, ih]
    · simp only [splitOnChar, hc, if_false]
      match h : splitOnChar sep cs with
      | [] => exact absurd h (splitOnChar_ne_nil cs)
      | [chunk] =>
        show c :: chunk = c :: cs
        have := ih; rw [h] at this
        simpa using congrArg (c :: ·) this
      | chunk :: chunk' :: rest =>
        show (c :: chunk) ++ sep :: joinWith sep (chunk' :: rest) = c :: cs
        have := ih; rw [h] at this
        rw [← this]; rfl

theorem splitOnChar_of_not_mem {sep : Char} : ∀ {cs : List Char}, sep ∉ cs →
    splitOnChar sep cs = [cs] := by
  intro cs
  induction cs with
  | nil => intro _; rfl
  | cons c cs ih =>
    intro h
    have hc : ¬ c = sep := fun he => h (he ▸ List.mem_cons_self c cs)
    simp only [splitOnChar, hc, if_false, ih (fun hm => h (List.mem_cons_of_mem c hm))]

theorem splitOnChar_append {sep : Char} : ∀ {a : List Char} (b : List Char), sep ∉ a →
    splitOnChar sep (a ++ sep :: b) = a :: splitOnChar sep b := by
  intro a
  induction a with
  | nil => intro b _; simp [splitOnChar]
  | cons c cs ih =>
    intro b h
    have hc : ¬ c = sep := fun he => h (he ▸ List.mem_cons_self c cs)
    simp only [List.cons_append, splitOnChar, hc, if_false, List.append_eq,
      ih b (fun hm => h (List.mem_cons_of_mem c hm))]

theorem mem_splitOnChar_mem {sep : Char} : ∀ {cs chunk : List Char},
    chunk ∈ splitOnChar sep cs → ∀ c ∈ chunk, c ∈ cs := by
  intro cs
  induction cs with
  | nil =>
    intro chunk h c hc
    simp only [splitOnChar, List.mem_singleton] at h
    subst h; exact absurd hc (List.not_mem_nil c)
  | cons x xs ih =>
    intro chunk h c hc
    by_cases hx : x = sep
    · subst hx
      simp only [splitOnChar, if_true, List.mem_cons] at h
      rcases h with rfl | h
      · exact absurd hc (List.not_mem_nil c)
      · exact List.mem_cons_of_mem x (ih h c hc)
    · simp only [splitOnChar, hx, if_false] at h
      match hres : splitOnChar sep xs with
      | [] => exact absurd hres (splitOnChar_ne_nil xs)
      | y :: ys =>
        rw [hres] at h
        rcases List.mem_cons.mp h with rfl | h2
        · rcases List.mem_cons.mp hc with rfl | hc2
          · exact List.mem_cons_self c xs
          · exact List.mem_cons_of_mem x (ih (hres ▸ List.mem_cons_self y ys) c hc2)
        · exact List.mem_cons_of_mem x (ih (hres ▸ List.mem_cons_of_mem y h2) c hc)

/-! ### The semver library surface used by dockermatrix (python-semver 2.7.x model) -/

/-- Model of `semver.VersionInfo` (named tuple of major, minor, patch, prerelease, build). -/
structure VersionInfo where
  major : Nat
  minor : Nat
  patch : Nat
  prerelease : Option String
  build : Option String
deriving DecidableEq

/-- One nonempty `[0-9A-Za-z-]+` chunk of a prerelease/build group. -/
def isValidChunk (cs : List Char) : Bool := !cs.isEmpty && cs.all isIdentChar

/-- The regex group `[0-9A-Za-z-]+(\.[0-9A-Za-z-]+)*` for prerelease and build. -/
def isValidDotted (cs : List Char) : Bool := (splitOnChar '.' cs).all isValidChunk

def parseFromChunks : List (List Char) → Option (List Char) → Option (List Char) →
    Option VersionInfo
  | [mj, mn, pt], prePart, buildPart =>
    if isCanonNum mj && isCanonNum mn && isCanonNum pt
        && (match prePart with | none => true | some p => isValidDotted p)
        && (match buildPart with | none => true | some b => isValidDotted b) then
      some ⟨digitsToNat mj, digitsToNat mn, digitsToNat pt,
            prePart.map String.mk, buildPart.map String.mk⟩
    else none
  | _, _, _ => none

def parseWithParts (corePart : List Char) (prePart buildPart : Option (List Char)) :
    Option VersionInfo :=
  parseFromChunks (splitOnChar '.' corePart) prePart buildPart

def parseSplitPreAux : Option (List Char × List Char) → List Char → Option (List Char) →
    Option VersionInfo
  | none, beforePlus, buildPart => parseWithParts beforePlus none buildPart
  | some p, _, buildPart => parseWithParts p.1 (some p.2) buildPart

def parseSplitPre (beforePlus : List Char) (buildPart : Option (List Char)) :
    Option VersionInfo :=
  parseSplitPreAux (splitAtChar '-' beforePlus) beforePlus buildPart

def parseVersionCharsAux : Option (List Char × List Char) → List Char → Option VersionInfo
  | none, cs => parseSplitPre cs none
  | some p, _ => parseSplitPre p.1 (some p.2)

def parseVersionChars (cs : List Char) : Option VersionInfo :=
  parseVersionCharsAux (splitAtChar '+' cs) cs

/-- Model of `semver.parse_version_info`: parses
`MAJOR.MINOR.PATCH[-PRERELEASE][+BUILD]` per python-semver's regex; the
`ValueError` raised on mismatch becomes `none`. -/
def parse_version_info (s : String) : Option VersionInfo := parseVersionChars s.data

def optSufChars (tag : Char) : Option String → List Char
  | none => []
  | some s => tag :: s.data

/-- The `"-prerelease"` suffix (empty when absent). -/
def preSufChars (v : VersionInfo) : List Char := optSufChars '-' v.prerelease

/-- The `"+build"` suffix (empty when absent). -/
def buildSufChars (v : VersionInfo) : List Char := optSufChars '+' v.build

/-- The `MAJOR.MINOR.PATCH` core of a formatted version (`"%d.%d.%d"`). -/
def coreChars (v : VersionInfo) : List Char :=
  natToDigits v.major ++ ('.' :: (natToDigits v.minor ++ ('.' :: natToDigits v.patch)))

def formatChars (v : VersionInfo) : List Char :=
  coreChars v ++ preSufChars v ++ buildSufChars v

/-- Model of `semver.format_version(major, minor, patch, prerelease, build)`:
`"%d.%d.%d"` plus optional `"-prerelease"` and `"+build"`. -/
def format_version (v : VersionInfo) : String := String.mk (formatChars v)

/-- A `VersionInfo` whose optional parts conform to the semver grammar (any
`VersionInfo` produced by `parse_version_info` satisfies this; a Python
`VersionInfo` built with garbage strings would make the library's re-parsing
raise). -/
def validVersionB (v : VersionInfo) : Bool :=
  (match v.prerelease with | none => true | some p => isValidDotted p.data)
    && (match v.build with | none => true | some b => isValidDotted b.data)

/-! Character-class facts -/

theorem isDigitChar_ne (c : Char) (h : isDigitChar c = true) :
    c ≠ '+' ∧ c ≠ '-' ∧ c ≠ '.' := by
  simp only [isDigitChar, Bool.and_eq_true, decide_eq_true_eq] at h
  refine ⟨?_, ?_, ?_⟩ <;> intro he <;> subst he <;> revert h <;> decide

theorem isIdentChar_ne (c : Char) (h : isIdentChar c = true) : c ≠ '+' ∧ c ≠ '.' := by
  simp only [isIdentChar, Bool.or_eq_true, Bool.and_eq_true, decide_eq_true_eq,
    isDigitChar] at h
  constructor <;> intro he <;> subst he <;>
    rcases h with ((h | h) | h) | h <;> first | omega | exact absurd h (by decide)

theorem validDotted_chars {cs : List Char} (h : isValidDotted cs = true) :
    ∀ c ∈ cs, c ≠ '+' ∧ c ≠ '.' ∨ c = '.' := by
  intro c hc
  by_cases hdot : c = '.'
  · exact Or.inr hdot
  · left
    -- c lies in some chunk of the dot-split
    have hjoin := @joinWith_splitOnChar '.' cs
    -- every chunk consists of ident chars
    have hchunks : ∀ chunk ∈ splitOnChar '.' cs, ∀ x ∈ chunk, isIdentChar x = true := by
      intro chunk hchunk x hx
      have := List.all_eq_true.mp h chunk hchunk
      simp only [isValidChunk, Bool.and_eq_true] at this
      exact List.all_eq_true.mp this.2 x hx
    -- membership in cs comes from membership in some chunk or being the separator
    have : ∀ (groups : List (List Char)), c ∈ joinWith '.' groups →
        (∃ g ∈ groups, c ∈ g) ∨ c = '.' := by
      intro groups
      induction groups with
      | nil => intro hmem; exact absurd hmem (List.not_mem_nil c)
      | cons g gs ihg =>
        intro hmem
        match gs with
        | [] => exact Or.inl ⟨g, List.mem_singleton_self g, hmem⟩
        | g' :: gs' =>
          rcases List.mem_append.mp hmem with hg | hrest
          · exact Or.inl ⟨g, List.mem_cons_self g _, hg⟩
          · rcases List.mem_cons.mp hrest with rfl | hrest2
            · exact Or.inr rfl
            · rcases ihg hrest2 with ⟨g2, hg2, hcg2⟩ | hdot2
              · exact Or.inl ⟨g2, List.mem_cons_of_mem g hg2, hcg2⟩
              · exact Or.inr hdot2
    rcases this (splitOnChar '.' cs) (by rw [hjoin]; exact hc) with ⟨g, hg, hcg⟩ | hdot2
    · exact isIdentChar_ne c (hchunks g hg c hcg)
    · exact absurd hdot2 hdot

theorem validDotted_no_plus {cs : List Char} (h : isValidDotted cs = true) : '+' ∉ cs := by
  intro hmem
  rcases validDotted_chars h '+' hmem with ⟨hne, _⟩ | hdot
  · exact hne rfl
  · exact absurd hdot (by decide)

theorem natToDigits_no_plus (n : Nat) : '+' ∉ natToDigits n := by
  intro h
  exact (isDigitChar_ne _ (natToDigits_all_digit n _ h)).1 rfl

theorem natToDigits_no_dash (n : Nat) : '-' ∉ natToDigits n := by
  intro h
  exact (isDigitChar_ne _ (natToDigits_all_digit n _ h)).2.1 rfl

theorem natToDigits_no_dot (n : Nat) : '.' ∉ natToDigits n := by
  intro h
  exact (isDigitChar_ne _ (natToDigits_all_digit n _ h)).2.2 rfl

theorem coreChars_no_plus (v : VersionInfo) : '+' ∉ coreChars v := by
  intro h
  unfold coreChars at h
  rcases List.mem_append.mp h with h | h
  · exact natToDigits_no_plus _ h
  · rcases List.mem_cons.mp h with h | h
    · exact absurd h (by decide)
    · rcases List.mem_append.mp h with h | h
      · exact natToDigits_no_plus _ h
      · rcases List.mem_cons.mp h with h | h
        · exact absurd h (by decide)
        · exact natToDigits_no_plus _ h

theorem coreChars_no_dash (v : VersionInfo) : '-' ∉ coreChars v := by
  intro h
  unfold coreChars at h
  rcases List.mem_append.mp h with h | h
  · exact natToDigits_no_dash _ h
  · rcases List.mem_cons.mp h with h | h
    · exact absurd h (by decide)
    · rcases List.mem_append.mp h with h | h
      · exact natToDigits_no_dash _ h
      · rcases List.mem_cons.mp h with h | h
        · exact absurd h (by decide)
        · exact natToDigits_no_dash _ h

theorem splitOnChar_coreChars (v : VersionInfo) :
    splitOnChar '.' (coreChars v) = [natToDigits v.major, natToDigits v.minor, natToDigits v.patch] := by
  unfold coreChars
  rw [splitOnChar_append _ (natToDigits_no_dot v.major),
    splitOnChar_append _ (natToDigits_no_dot v.minor),
    splitOnChar_of_not_mem (natToDigits_no_dot v.patch)]

theorem parseWithParts_core (v : VersionInfo)
    (hpre : (match v.prerelease with | none => true | some p => isValidDotted p.data) = true)
    (hbuild : (match v.build with | none => true | some b => isValidDotted b.data) = true) :
    parseWithParts (coreChars v) (v.prerelease.map String.data) (v.build.map String.data)
      = some v := by
  unfold parseWithParts
  rw [splitOnChar_coreChars]
  simp only [parseFromChunks]
  have hcanon1 := isCanonNum_natToDigits v.major
  have hcanon2 := isCanonNum_natToDigits v.minor
  have hcanon3 := isCanonNum_natToDigits v.patch
  have hpre' : (match v.prerelease.map String.data with
      | none => true | some p => isValidDotted p) = true := by
    match h : v.prerelease with
    | none => rfl
    | some p => rw [h] at hpre; exact hpre
  have hbuild' : (match v.build.map String.data with
      | none => true | some b => isValidDotted b) = true := by
    match h : v.build with
    | none => rfl
    | some b => rw [h] at hbuild; exact hbuild
  rw [hcanon1, hcanon2, hcanon3, hpre', hbuild']
  simp only [Bool.and_self, if_true]
  congr 1
  have hmk : ∀ o : Option String, (o.map String.data).map String.mk = o := by
    intro o; match o with
    | none => rfl
    | some s => cases s; rfl
  calc (⟨digitsToNat (natToDigits v.major), digitsToNat (natToDigits v.minor),
        digitsToNat (natToDigits v.patch),
        (v.prerelease.map String.data).map String.mk,
        (v.build.map String.data).map String.mk⟩ : VersionInfo)
      = ⟨v.major, v.minor, v.patch, v.prerelease, v.build⟩ := by
        rw [digitsToNat_natToDigits, digitsToNat_natToDigits, digitsToNat_natToDigits,
          hmk, hmk]
    _ = v := rfl

/-- Formatting a valid `VersionInfo` and re-parsing recovers it (the direction
used whenever the library re-parses its own output, e.g. in `max_ver`). -/
theorem parse_format (v : VersionInfo) (hv : validVersionB v = true) :
    parse_version_info (format_version v) = some v := by
  simp only [validVersionB, Bool.and_eq_true] at hv
  show parseVersionChars (formatChars v) = some v
  have hcore := parseWithParts_core v hv.1 hv.2
  unfold parseVersionChars formatChars
  match hb : v.build with
  | none =>
    have hbs : buildSufChars v = [] := by unfold buildSufChars; rw [hb]; rfl
    rw [hbs, List.append_nil]
    match hp : v.prerelease with
    | none =>
      have hps : preSufChars v = [] := by unfold preSufChars; rw [hp]; rfl
      rw [hps, List.append_nil]
      rw [splitAtChar_of_not_mem (coreChars_no_plus v)]
      simp only [parseVersionCharsAux, parseSplitPre]
      rw [splitAtChar_of_not_mem (coreChars_no_dash v)]
      simp only [parseSplitPreAux]
      rw [hp, hb] at hcore
      exact hcore
    | some p =>
      have hpvalid : isValidDotted p.data = true := by rw [hp] at hv; exact hv.1
      have hps : preSufChars v = '-' :: p.data := by unfold preSufChars; rw [hp]; rfl
      rw [hps]
      have hnoplus : '+' ∉ coreChars v ++ '-' :: p.data := by
        intro hmem
        rcases List.mem_append.mp hmem with h | h
        · exact coreChars_no_plus v h
        · rcases List.mem_cons.mp h with h | h
          · exact absurd h (by decide)
          · exact validDotted_no_plus hpvalid h
      rw [splitAtChar_of_not_mem hnoplus]
      simp only [parseVersionCharsAux, parseSplitPre]
      rw [splitAtChar_append _ (coreChars_no_dash v)]
      simp only [parseSplitPreAux]
      rw [hp, hb] at hcore
      exact hcore
  | some b =>
    have hbs : buildSufChars v = '+' :: b.data := by unfold buildSufChars; rw [hb]; rfl
    rw [hbs]
    match hp : v.prerelease with
    | none =>
      have hps : preSufChars v = [] := by unfold preSufChars; rw [hp]; rfl
      rw [hps, List.append_nil]
      rw [splitAtChar_append _ (coreChars_no_plus v)]
      simp only [parseVersionCharsAux, parseSplitPre]
      rw [splitAtChar_of_not_mem (coreChars_no_dash v)]
      simp only [parseSplitPreAux]
      rw [hp, hb] at hcore
      exact hcore
    | some p =>
      have hpvalid : isValidDotted p.data = true := by rw [hp] at hv; exact hv.1
      have hps : preSufChars v = '-' :: p.data := by unfold preSufChars; rw [hp]; rfl
      rw [hps]
      have hnoplus : '+' ∉ coreChars v ++ '-' :: p.data := by
        intro hmem
        rcases List.mem_append.mp hmem with h | h
        · exact coreChars_no_plus v h
        · rcases List.mem_cons.mp h with h | h
          · exact absurd h (by decide)
          · exact validDotted_no_plus hpvalid h
      rw [splitAtChar_append _ hnoplus]
      simp only [parseVersionCharsAux, parseSplitPre]
      rw [splitAtChar_append _ (coreChars_no_dash v)]
      simp only [parseSplitPreAux]
      rw [hp, hb] at hcore
      exact hcore

/-! ### semver comparison (model of semver.compare / semver.max_ver) -/

def cmpNat (a b : Nat) : Int := if a < b then -1 else if b < a then 1 else 0

/-- Python `cmp` on strings: lexicographic by code point, prefix is smaller. -/
def cmpLex : List Char → List Char → Int
  | [], [] => 0
  | [], _ :: _ => -1
  | _ :: _, [] => 1
  | a :: as, b :: bs =>
    if a.toNat < b.toNat then -1 else if b.toNat < a.toNat then 1 else cmpLex as bs

/-- `int(x) if re.match(r"[0-9]+$", x) else x` applied to a prerelease chunk. -/
def convertChunk (cs : List Char) : Sum Nat (List Char) :=
  if !cs.isEmpty && cs.all isDigitChar then Sum.inl (digitsToNat cs) else Sum.inr cs

/-- `cmp_prerelease_tag`: numeric identifiers sort before alphanumeric ones. -/
def cmpTag : Sum Nat (List Char) → Sum Nat (List Char) → Int
  | Sum.inl a, Sum.inl b => cmpNat a b
  | Sum.inl _, Sum.inr _ => -1
  | Sum.inr _, Sum.inl _ => 1
  | Sum.inr a, Sum.inr b => cmpLex a b

/-- The `zip` loop of `nat_cmp`, with the final length tie-break passed in. -/
def zipCmpTags : List (Sum Nat (List Char)) → List (Sum Nat (List Char)) → Int → Int
  | a :: as, b :: bs, tie =>
    let c := cmpTag a b
    if c = 0 then zipCmpTags as bs tie else c
  | _, _, tie => tie

/-- Model of `nat_cmp` inside semver.compare: dot-split both strings, compare
chunkwise (numeric chunks as integers), tie-break on the lengths of the
original strings. -/
def natCmpStr (a b : List Char) : Int :=
  zipCmpTags ((splitOnChar '.' a).map convertChunk) ((splitOnChar '.' b).map convertChunk)
    (cmpNat a.length b.length)

/-- Python falsy test `not rc` on the prerelease slot (None or empty string). -/
def isFalsyPre : Option String → Bool
  | none => true
  | some s => s == ""

/-- Model of `compare_by_keys` in semver.compare: major, minor, patch, then
the prerelease rules (absent prerelease wins). Build metadata is ignored. -/
def vcompare (v1 v2 : VersionInfo) : Int :=
  let c1 := cmpNat v1.major v2.major
  if c1 = 0 then
    let c2 := cmpNat v1.minor v2.minor
    if c2 = 0 then
      let c3 := cmpNat v1.patch v2.patch
      if c3 = 0 then
        let rccmp := natCmpStr (v1.prerelease.getD "").data (v2.prerelease.getD "").data
        if rccmp = 0 then 0
        else if isFalsyPre v1.prerelease then 1
        else if isFalsyPre v2.prerelease then -1
        else rccmp
      else c3
    else c2
  else c1

/-- Model of `semver.compare` on version strings; parsing failure (Python
`ValueError`) becomes `none`. -/
def semverCompare (s1 s2 : String) : Option Int := do
  let v1 ← parse_version_info s1
  let v2 ← parse_version_info s2
  pure (vcompare v1 v2)

/-- Model of `semver.max_ver`: returns the first argument on ties. -/
def max_ver (s1 s2 : String) : Option String :=
  (semverCompare s1 s2).map (fun c => if c = 0 ∨ c = 1 then s1 else s2)

/-- Lexicographic comparison of (major, minor, patch) alone. -/
def tripleCmp (v w : VersionInfo) : Int :=
  let c1 := cmpNat v.major w.major
  if c1 = 0 then
    let c2 := cmpNat v.minor w.minor
    if c2 = 0 then cmpNat v.patch w.patch else c2
  else c1

theorem cmpNat_self (a : Nat) : cmpNat a a = 0 := by simp [cmpNat]

theorem cmpLex_self : ∀ cs, cmpLex cs cs = 0 := by
  intro cs
  induction cs with
  | nil => rfl
  | cons c cs ih => simp [cmpLex, ih]

theorem cmpTag_self (t : Sum Nat (List Char)) : cmpTag t t = 0 := by
  match t with
  | Sum.inl a => exact cmpNat_self a
  | Sum.inr a => exact cmpLex_self a

theorem zipCmpTags_self (tie : Int) : ∀ l, zipCmpTags l l tie = tie := by
  intro l
  induction l with
  | nil => rfl
  | cons x xs ih => simp [zipCmpTags, cmpTag_self, ih]

theorem natCmpStr_self (a : List Char) : natCmpStr a a = 0 := by
  unfold natCmpStr
  rw [zipCmpTags_self, cmpNat_self]

/-- When two versions carry the same prerelease, semver comparison degenerates
to the lexicographic comparison of the numeric triples. -/
theorem vcompare_same_pre {v w : VersionInfo} (h : v.prerelease = w.prerelease) :
    vcompare v w = tripleCmp v w := by
  unfold vcompare tripleCmp
  by_cases h1 : cmpNat v.major w.major = 0
  · simp only [h1, if_true]
    by_cases h2 : cmpNat v.minor w.minor = 0
    · simp only [h2, if_true]
      by_cases h3 : cmpNat v.patch w.patch = 0
      · simp only [h3, if_true, h, natCmpStr_self, if_true]
      · simp only [h3, if_false]
    · simp only [h2, if_false]
  · simp only [h1, if_false]

theorem cmpNat_cases (a b : Nat) :
    (a < b ∧ cmpNat a b = -1) ∨ (a = b ∧ cmpNat a b = 0) ∨ (b < a ∧ cmpNat a b = 1) := by
  unfold cmpNat
  rcases Nat.lt_trichotomy a b with h | h | h
  · exact Or.inl ⟨h, by rw [if_pos h]⟩
  · refine Or.inr (Or.inl ⟨h, ?_⟩)
    rw [if_neg (by omega), if_neg (by omega)]
  · refine Or.inr (Or.inr ⟨h, ?_⟩)
    rw [if_neg (by omega), if_pos h]

/-- Strict lexicographic order on the numeric triple. -/
def tripleLt (v w : VersionInfo) : Prop :=
  v.major < w.major ∨ (v.major = w.major ∧
    (v.minor < w.minor ∨ (v.minor = w.minor ∧ v.patch < w.patch)))

def tripleEq (v w : VersionInfo) : Prop :=
  v.major = w.major ∧ v.minor = w.minor ∧ v.patch = w.patch

theorem tripleCmp_char (v w : VersionInfo) :
    (tripleCmp v w = -1 ∧ tripleLt v w) ∨ (tripleCmp v w = 0 ∧ tripleEq v w)
      ∨ (tripleCmp v w = 1 ∧ tripleLt w v) := by
  unfold tripleCmp tripleLt tripleEq
  rcases cmpNat_cases v.major w.major with ⟨h1, e1⟩ | ⟨h1, e1⟩ | ⟨h1, e1⟩
  · rw [e1]; exact Or.inl ⟨by norm_num, Or.inl h1⟩
  · rw [e1]
    simp only [if_pos rfl]
    rcases cmpNat_cases v.minor w.minor with ⟨h2, e2⟩ | ⟨h2, e2⟩ | ⟨h2, e2⟩
    · rw [e2]; exact Or.inl ⟨by norm_num, Or.inr ⟨h1, Or.inl h2⟩⟩
    · rw [e2]
      simp only [if_pos rfl]
      rcases cmpNat_cases v.patch w.patch with ⟨h3, e3⟩ | ⟨h3, e3⟩ | ⟨h3, e3⟩
      · rw [e3]; exact Or.inl ⟨by norm_num, Or.inr ⟨h1, Or.inr ⟨h2, h3⟩⟩⟩
      · rw [e3]; exact Or.inr (Or.inl ⟨by norm_num, h1, h2, h3⟩)
      · rw [e3]; exact Or.inr (Or.inr ⟨by norm_num, Or.inr ⟨h1.symm, Or.inr ⟨h2.symm, h3⟩⟩⟩)
    · rw [e2]; exact Or.inr (Or.inr ⟨by norm_num, Or.inr ⟨h1.symm, Or.inl h2⟩⟩)
  · rw [e1]; exact Or.inr (Or.inr ⟨by norm_num, Or.inl h1⟩)

theorem tripleLt_asymm {v w : VersionInfo} (h : tripleLt v w) : ¬ tripleLt w v := by
  unfold tripleLt at *; omega

theorem tripleLt_trans {u v w : VersionInfo} (h1 : tripleLt u v) (h2 : tripleLt v w) :
    tripleLt u w := by
  unfold tripleLt at *; omega

theorem tripleEq_of_tripleCmp_zero {v w : VersionInfo} (h : tripleCmp v w = 0) :
    tripleEq v w := by
  rcases tripleCmp_char v w with ⟨e, _⟩ | ⟨_, he⟩ | ⟨e, _⟩
  · rw [e] at h; exact absurd h (by norm_num)
  · exact he
  · rw [e] at h; exact absurd h (by norm_num)

theorem tripleLt_of_tripleCmp_one {v w : VersionInfo} (h : tripleCmp v w = 1) :
    tripleLt w v := by
  rcases tripleCmp_char v w with ⟨e, _⟩ | ⟨e, _⟩ | ⟨_, hl⟩
  · rw [e] at h; exact absurd h (by norm_num)
  · rw [e] at h; exact absurd h (by norm_num)
  · exact hl

theorem tripleCmp_le_zero_of {v w : VersionInfo} (h : tripleLt v w ∨ tripleEq v w) :
    tripleCmp v w = 0 ∨ tripleCmp v w = -1 := by
  rcases tripleCmp_char v w with ⟨e, _⟩ | ⟨e, _⟩ | ⟨_, hl⟩
  · exact Or.inr e
  · exact Or.inl e
  · exfalso
    rcases h with h | h
    · exact tripleLt_asymm h hl
    · unfold tripleLt at hl; unfold tripleEq at h; omega

/-- The parsed form of the `"0.0.0"` seed used in `BuildMatrix.__init__`. -/
def seedV : VersionInfo := ⟨0, 0, 0, none, none⟩

theorem parse_seed : parse_version_info "0.0.0" = some seedV := by decide

theorem splitOnChar_cons_ne {sep c : Char} (cs : List Char) (hc : ¬ c = sep) :
    ∃ chunk rest, splitOnChar sep cs = chunk :: rest
      ∧ splitOnChar sep (c :: cs) = (c :: chunk) :: rest := by
  match h : splitOnChar sep cs with
  | [] => exact absurd h (splitOnChar_ne_nil cs)
  | chunk :: rest =>
    refine ⟨chunk, rest, rfl, ?_⟩
    simp [splitOnChar, hc, h]

theorem natCmpStr_nil_ne {p : List Char} (hp : p ≠ []) : natCmpStr [] p ≠ 0 := by
  match p with
  | [] => exact absurd rfl hp
  | c :: cs =>
    unfold natCmpStr
    rw [show splitOnChar '.' ([] : List Char) = [[]] from rfl]
    by_cases hc : c = '.'
    · subst hc
      rw [show splitOnChar '.' ('.' :: cs) = [] :: splitOnChar '.' cs from by simp [splitOnChar]]
      simp only [List.map_cons, List.map_nil]
      rw [show convertChunk [] = Sum.inr [] from rfl]
      simp only [zipCmpTags, cmpTag, cmpLex]
      norm_num [zipCmpTags, cmpNat]
    · obtain ⟨chunk, rest, hres, hres2⟩ := splitOnChar_cons_ne cs hc
      rw [hres2]
      simp only [List.map_cons, List.map_nil]
      rw [show convertChunk [] = Sum.inr [] from rfl]
      match hconv : convertChunk (c :: chunk) with
      | Sum.inl n =>
        simp only [zipCmpTags, cmpTag]
        norm_num
      | Sum.inr l =>
        have hl : l = c :: chunk := by
          unfold convertChunk at hconv
          by_cases hcond : (!(c :: chunk).isEmpty && (c :: chunk).all isDigitChar) = true
          · rw [if_pos hcond] at hconv; exact absurd hconv (by simp)
          · rw [if_neg hcond] at hconv
            injection hconv with h'
            exact h'.symm
        subst hl
        simp only [zipCmpTags, cmpTag, cmpLex]
        norm_num

theorem vcompare_of_tripleCmp_ne {v w : VersionInfo} (h : tripleCmp v w ≠ 0) :
    vcompare v w = tripleCmp v w := by
  unfold tripleCmp at h ⊢
  unfold vcompare
  rcases cmpNat_cases v.major w.major with ⟨h1, e1⟩ | ⟨h1, e1⟩ | ⟨h1, e1⟩ <;> rw [e1] at h ⊢
  · norm_num
  · simp only [if_pos rfl] at h ⊢
    rcases cmpNat_cases v.minor w.minor with ⟨h2, e2⟩ | ⟨h2, e2⟩ | ⟨h2, e2⟩ <;> rw [e2] at h ⊢
    · norm_num
    · simp only [if_pos rfl] at h ⊢
      rcases cmpNat_cases v.patch w.patch with ⟨h3, e3⟩ | ⟨h3, e3⟩ | ⟨h3, e3⟩ <;> rw [e3] at h ⊢
      · norm_num
      · exact absurd (by norm_num) h
      · norm_num
    · norm_num
  · norm_num

theorem string_ne_empty_data {p : String} (h : p ≠ "") : p.data ≠ [] := by
  intro hd
  apply h
  cases p
  simp only at hd
  rw [hd]

/-- The `"0.0.0"` seed beats any prerelease (or build-tagged) variant of 0.0.0:
absent prerelease wins in `compare_by_keys`. -/
theorem vcompare_seed_pre {v : VersionInfo} (hmaj : v.major = 0) (hmin : v.minor = 0)
    (hpat : v.patch = 0) {p : String} (hp : v.prerelease = some p) (hne : p ≠ "") :
    vcompare seedV v = 1 := by
  unfold vcompare
  have e1 : cmpNat seedV.major v.major = 0 := by rw [hmaj]; rfl
  have e2 : cmpNat seedV.minor v.minor = 0 := by rw [hmin]; rfl
  have e3 : cmpNat seedV.patch v.patch = 0 := by rw [hpat]; rfl
  rw [e1]
  simp only [if_pos rfl]
  rw [e2]
  simp only [if_pos rfl]
  rw [e3]
  simp only [if_pos rfl]
  have hseedpre : (seedV.prerelease.getD "").data = [] := rfl
  rw [hseedpre, hp]
  have hgd : ((some p).getD "").data = p.data := rfl
  rw [hgd]
  rw [if_neg (natCmpStr_nil_ne (string_ne_empty_data hne))]
  have hfalsy : isFalsyPre seedV.prerelease = true := rfl
  rw [hfalsy]
  rfl

theorem vcompare_seed_lt {v : VersionInfo} (h : ¬(v.major = 0 ∧ v.minor = 0 ∧ v.patch = 0)) :
    vcompare seedV v = -1 := by
  have htc : tripleCmp seedV v = -1 := by
    rcases tripleCmp_char seedV v with ⟨e, _⟩ | ⟨_, he⟩ | ⟨_, hl⟩
    · exact e
    · exfalso
      unfold tripleEq at he
      have e1 : seedV.major = 0 := rfl
      have e2 : seedV.minor = 0 := rfl
      have e3 : seedV.patch = 0 := rfl
      rw [e1, e2, e3] at he
      exact h ⟨he.1.symm, he.2.1.symm, he.2.2.symm⟩
    · exfalso
      unfold tripleLt at hl
      have e1 : seedV.major = 0 := rfl
      have e2 : seedV.minor = 0 := rfl
      have e3 : seedV.patch = 0 := rfl
      rw [e1, e2, e3] at hl
      omega
  rw [vcompare_of_tripleCmp_ne (by rw [htc]; norm_num), htc]

theorem max_ver_formatted {v w : VersionInfo} (hv : validVersionB v = true)
    (hw : validVersionB w = true) :
    max_ver (format_version v) (format_version w)
      = some (if vcompare v w = 0 ∨ vcompare v w = 1 then format_version v
              else format_version w) := by
  unfold max_ver semverCompare
  rw [parse_format v hv, parse_format w hw]
  rfl

theorem max_ver_seed_right {w : VersionInfo} (hw : validVersionB w = true) :
    max_ver "0.0.0" (format_version w)
      = some (if vcompare seedV w = 0 ∨ vcompare seedV w = 1 then "0.0.0"
              else format_version w) := by
  unfold max_ver semverCompare
  rw [parse_seed, parse_format w hw]
  rfl

theorem max_ver_mem {s1 s2 r : String} (h : max_ver s1 s2 = some r) : r = s1 ∨ r = s2 := by
  unfold max_ver at h
  match hc : semverCompare s1 s2 with
  | none => rw [hc] at h; exact absurd h (by simp)
  | some c =>
    rw [hc] at h
    simp only [Option.map_some', Option.some_inj] at h
    by_cases hcc : c = 0 ∨ c = 1
    · rw [if_pos hcc] at h; exact Or.inl h.symm
    · rw [if_neg hcc] at h; exact Or.inr h.symm

theorem format_seed : format_version seedV = "0.0.0" := by decide

/-! ### Alias-label formatting (model of the monkey-patched semver formatters) -/

/-- The `-prerelease+build` tail shared by both alias labels. -/
def labelSufChars (v : VersionInfo) : List Char := preSufChars v ++ buildSufChars v

def majorLabelChars (v : VersionInfo) : List Char := natToDigits v.major ++ labelSufChars v

/-- Model of `__semver_format_major_version` (installed as
`semver.format_major_version`): `str(major)`, then `"-%s" % prerelease` and
`"+%s" % build` when present. -/
def format_major_version (v : VersionInfo) : String := String.mk (majorLabelChars v)

def minorLabelChars (v : VersionInfo) : List Char :=
  natToDigits v.major ++ ('.' :: (natToDigits v.minor ++ labelSufChars v))

/-- Model of `__semver_format_minor_version` (installed as
`semver.format_minor_version`): `"%d.%d" % (major, minor)`, then the same
optional suffixes. -/
def format_minor_version (v : VersionInfo) : String := String.mk (minorLabelChars v)

/-- Spans of `f`-true characters followed by an `f`-false (or empty) remainder
decompose uniquely. -/
theorem append_span_unique (f : Char → Bool) :
    ∀ (a1 a2 r1 r2 : List Char), a1 ++ r1 = a2 ++ r2 →
    (∀ c ∈ a1, f c = true) → (∀ c ∈ a2, f c = true) →
    (∀ c, r1.head? = some c → f c = false) → (∀ c, r2.head? = some c → f c = false) →
    a1 = a2 ∧ r1 = r2 := by
  intro a1
  induction a1 with
  | nil =>
    intro a2 r1 r2 heq h1 h2 hr1 hr2
    match a2 with
    | [] => exact ⟨rfl, heq⟩
    | c :: a2' =>
      exfalso
      simp only [List.nil_append] at heq
      have hhd : r1.head? = some c := by rw [heq]; rfl
      have hf := hr1 c hhd
      have ht := h2 c (List.mem_cons_self c a2')
      rw [ht] at hf
      exact Bool.noConfusion hf
  | cons c a1' ih =>
    intro a2 r1 r2 heq h1 h2 hr1 hr2
    match a2 with
    | [] =>
      exfalso
      simp only [List.nil_append] at heq
      have hhd : r2.head? = some c := by rw [← heq]; rfl
      have hf := hr2 c hhd
      have ht := h1 c (List.mem_cons_self c a1')
      rw [ht] at hf
      exact Bool.noConfusion hf
    | c2 :: a2' =>
      simp only [List.cons_append] at heq
      injection heq with hc htail
      subst hc
      obtain ⟨he, hr⟩ := ih a2' r1 r2 htail
        (fun x hx => h1 x (List.mem_cons_of_mem c hx))
        (fun x hx => h2 x (List.mem_cons_of_mem c hx)) hr1 hr2
      exact ⟨by rw [he], hr⟩

theorem labelSuf_shape (v : VersionInfo) :
    labelSufChars v = [] ∨ (∃ t, labelSufChars v = '-' :: t)
      ∨ (∃ t, labelSufChars v = '+' :: t) := by
  unfold labelSufChars preSufChars buildSufChars optSufChars
  match v.prerelease with
  | some p => exact Or.inr (Or.inl ⟨p.data ++ _, rfl⟩)
  | none =>
    match v.build with
    | some b => exact Or.inr (Or.inr ⟨b.data, rfl⟩)
    | none => exact Or.inl rfl

theorem labelSuf_head_not_digit (v : VersionInfo) :
    ∀ c, (labelSufChars v).head? = some c → isDigitChar c = false := by
  intro c hc
  rcases labelSuf_shape v with h | ⟨t, h⟩ | ⟨t, h⟩ <;> rw [h] at hc
  · exact absurd hc (by simp)
  · simp only [List.head?_cons, Option.some_inj] at hc
    subst hc; decide
  · simp only [List.head?_cons, Option.some_inj] at hc
    subst hc; decide

theorem dot_head_not_digit (l : List Char) :
    ∀ c, (('.' :: l) : List Char).head? = some c → isDigitChar c = false := by
  intro c hc
  simp only [List.head?_cons, Option.some_inj] at hc
  subst hc; decide

theorem digits_prefix_eq {m1 m2 : Nat} {r1 r2 : List Char}
    (heq : natToDigits m1 ++ r1 = natToDigits m2 ++ r2)
    (h1 : ∀ c, r1.head? = some c → isDigitChar c = false)
    (h2 : ∀ c, r2.head? = some c → isDigitChar c = false) :
    m1 = m2 ∧ r1 = r2 := by
  obtain ⟨ha, hr⟩ := append_span_unique isDigitChar (natToDigits m1) (natToDigits m2) r1 r2
    heq (fun c hc => natToDigits_all_digit m1 c hc)
    (fun c hc => natToDigits_all_digit m2 c hc) h1 h2
  constructor
  · have := congrArg digitsToNat ha
    rwa [digitsToNat_natToDigits, digitsToNat_natToDigits] at this
  · exact hr

theorem string_data_inj {a b : String} (h : a.data = b.data) : a = b := by
  cases a; cases b
  exact congrArg String.mk h

theorem buildSuf_inj {v w : VersionInfo} (h : buildSufChars v = buildSufChars w) :
    v.build = w.build := by
  unfold buildSufChars at h
  match hb1 : v.build, hb2 : w.build with
  | none, none => rfl
  | none, some b =>
    rw [hb1, hb2] at h
    simp only [optSufChars] at h
    exact absurd h (by simp)
  | some b, none =>
    rw [hb1, hb2] at h
    simp only [optSufChars] at h
    exact absurd h (by simp)
  | some b1, some b2 =>
    rw [hb1, hb2] at h
    simp only [optSufChars] at h
    injection h with _ hdata
    rw [string_data_inj hdata]

/-- A character that is not `'+'` (prerelease bodies never contain `'+'`). -/
def notPlus (c : Char) : Bool := !(c == '+')

theorem validDotted_notPlus {p : List Char} (h : isValidDotted p = true) :
    ∀ c ∈ p, notPlus c = true := by
  intro c hc
  unfold notPlus
  rcases validDotted_chars h c hc with ⟨hne, _⟩ | hdot
  · simp [hne]
  · subst hdot; decide

theorem buildSuf_head_plus (v : VersionInfo) :
    ∀ c, (buildSufChars v).head? = some c → notPlus c = false := by
  intro c hc
  unfold buildSufChars optSufChars at hc
  match hb : v.build with
  | none => rw [hb] at hc; exact absurd hc (by simp)
  | some b =>
    rw [hb] at hc
    simp only [List.head?_cons, Option.some_inj] at hc
    subst hc; decide

theorem labelSuf_inj {v w : VersionInfo} (hv : validVersionB v = true)
    (hw : validVersionB w = true) (h : labelSufChars v = labelSufChars w) :
    v.prerelease = w.prerelease ∧ v.build = w.build := by
  simp only [validVersionB, Bool.and_eq_true] at hv hw
  unfold labelSufChars at h
  match hp1 : v.prerelease, hp2 : w.prerelease with
  | none, none =>
    have hpre1 : preSufChars v = [] := by unfold preSufChars; rw [hp1]; rfl
    have hpre2 : preSufChars w = [] := by unfold preSufChars; rw [hp2]; rfl
    rw [hpre1, hpre2, List.nil_append, List.nil_append] at h
    exact ⟨rfl, buildSuf_inj h⟩
  | none, some p2 =>
    exfalso
    have hpre1 : preSufChars v = [] := by unfold preSufChars; rw [hp1]; rfl
    have hpre2 : preSufChars w = '-' :: p2.data := by unfold preSufChars; rw [hp2]; rfl
    rw [hpre1, hpre2, List.nil_append, List.cons_append] at h
    match hb : v.build with
    | none =>
      have hbs : buildSufChars v = [] := by unfold buildSufChars; rw [hb]; rfl
      rw [hbs] at h
      exact absurd h (by simp)
    | some b =>
      have hbs : buildSufChars v = '+' :: b.data := by unfold buildSufChars; rw [hb]; rfl
      rw [hbs] at h
      injection h with hc _
      exact absurd hc (by decide)
  | some p1, none =>
    exfalso
    have hpre1 : preSufChars v = '-' :: p1.data := by unfold preSufChars; rw [hp1]; rfl
    have hpre2 : preSufChars w = [] := by unfold preSufChars; rw [hp2]; rfl
    rw [hpre1, hpre2, List.nil_append, List.cons_append] at h
    match hb : w.build with
    | none =>
      have hbs : buildSufChars w = [] := by unfold buildSufChars; rw [hb]; rfl
      rw [hbs] at h
      exact absurd h (by simp)
    | some b =>
      have hbs : buildSufChars w = '+' :: b.data := by unfold buildSufChars; rw [hb]; rfl
      rw [hbs] at h
      injection h with hc _
      exact absurd hc (by decide)
  | some p1, some p2 =>
    have hpre1 : preSufChars v = '-' :: p1.data := by unfold preSufChars; rw [hp1]; rfl
    have hpre2 : preSufChars w = '-' :: p2.data := by unfold preSufChars; rw [hp2]; rfl
    rw [hpre1, hpre2, List.cons_append, List.cons_append] at h
    injection h with _ htail
    have hv1 : isValidDotted p1.data = true := by
      have := hv.1; rw [hp1] at this; exact this
    have hv2 : isValidDotted p2.data = true := by
      have := hw.1; rw [hp2] at this; exact this
    obtain ⟨hpe, hbe⟩ := append_span_unique notPlus p1.data p2.data
      (buildSufChars v) (buildSufChars w) htail
      (validDotted_notPlus hv1) (validDotted_notPlus hv2)
      (buildSuf_head_plus v) (buildSuf_head_plus w)
    exact ⟨by rw [string_data_inj hpe], buildSuf_inj hbe⟩

/-- Equal major-alias labels force equal major, prerelease and build. -/
theorem major_label_inj {v w : VersionInfo} (hv : validVersionB v = true)
    (hw : validVersionB w = true) (h : format_major_version v = format_major_version w) :
    v.major = w.major ∧ v.prerelease = w.prerelease ∧ v.build = w.build := by
  have hchars : majorLabelChars v = majorLabelChars w := congrArg String.data h
  unfold majorLabelChars at hchars
  obtain ⟨hm, hsuf⟩ := digits_prefix_eq hchars (labelSuf_head_not_digit v)
    (labelSuf_head_not_digit w)
  exact ⟨hm, labelSuf_inj hv hw hsuf⟩

/-- Equal minor-alias labels force equal major, minor, prerelease and build. -/
theorem minor_label_inj {v w : VersionInfo} (hv : validVersionB v = true)
    (hw : validVersionB w = true) (h : format_minor_version v = format_minor_version w) :
    v.major = w.major ∧ v.minor = w.minor ∧ v.prerelease = w.prerelease ∧ v.build = w.build := by
  have hchars : minorLabelChars v = minorLabelChars w := congrArg String.data h
  unfold minorLabelChars at hchars
  obtain ⟨hm, hrest⟩ := digits_prefix_eq hchars (dot_head_not_digit _) (dot_head_not_digit _)
  injection hrest with _ htail
  obtain ⟨hmn, hsuf⟩ := digits_prefix_eq htail (labelSuf_head_not_digit v)
    (labelSuf_head_not_digit w)
  exact ⟨hm, hmn, labelSuf_inj hv hw hsuf⟩

/-- A major-alias label is never equal to a minor-alias label (the character
after the leading digit run is `'-'`/`'+'`/absent in one and `'.'` in the other). -/
theorem major_label_ne_minor_label (v w : VersionInfo) :
    format_major_version v ≠ format_minor_version w := by
  intro h
  have hchars : majorLabelChars v = minorLabelChars w := congrArg String.data h
  unfold majorLabelChars minorLabelChars at hchars
  obtain ⟨_, hsuf⟩ := digits_prefix_eq hchars (labelSuf_head_not_digit v)
    (dot_head_not_digit _)
  rcases labelSuf_shape v with hs | ⟨t, hs⟩ | ⟨t, hs⟩ <;> rw [hs] at hsuf
  · exact absurd hsuf (by simp)
  · injection hsuf with hc _; exact absurd hc (by decide)
  · injection hsuf with hc _; exact absurd hc (by decide)

theorem dash_mem_labelSuf {v : VersionInfo} {p : String} (hp : v.prerelease = some p) :
    '-' ∈ labelSufChars v := by
  unfold labelSufChars preSufChars
  rw [hp]
  show '-' ∈ ('-' :: p.data) ++ buildSufChars v
  exact List.mem_append_left _ (List.mem_cons_self _ _)

theorem plus_mem_labelSuf {v : VersionInfo} {b : String} (hb : v.build = some b) :
    '+' ∈ labelSufChars v := by
  unfold labelSufChars buildSufChars
  rw [hb]
  show '+' ∈ preSufChars v ++ ('+' :: b.data)
  exact List.mem_append_right _ (List.mem_cons_self _ _)

/-- A label without `'-'` and `'+'` can only come from a stable version with no
build metadata (for either alias kind). -/
theorem bare_label_stable {v : VersionInfo} {L : String}
    (hL : format_major_version v = L ∨ format_minor_version v = L)
    (hd : '-' ∉ L.data) (hpl : '+' ∉ L.data) :
    v.prerelease = none ∧ v.build = none := by
  have hsuf : ∀ c ∈ labelSufChars v, c ∈ L.data := by
    rcases hL with hL | hL
    · intro c hc
      rw [← hL]
      show c ∈ majorLabelChars v
      exact List.mem_append_right _ hc
    · intro c hc
      rw [← hL]
      show c ∈ minorLabelChars v
      unfold minorLabelChars
      refine List.mem_append_right _ ?_
      exact List.mem_cons_of_mem _ (List.mem_append_right _ hc)
  constructor
  · match hp : v.prerelease with
    | none => rfl
    | some p => exact absurd (hsuf '-' (dash_mem_labelSuf hp)) hd
  · match hb : v.build with
    | none => rfl
    | some b => exact absurd (hsuf '+' (plus_mem_labelSuf hb)) hpl

theorem dash_mem_format {v : VersionInfo} {p : String} (hp : v.prerelease = some p) :
    '-' ∈ (format_version v).data := by
  show '-' ∈ formatChars v
  unfold formatChars
  refine List.mem_append_left _ (List.mem_append_right _ ?_)
  unfold preSufChars
  rw [hp]
  exact List.mem_cons_self _ _

/-- Formatted versions of valid `VersionInfo`s are injective (via round-trip). -/
theorem format_version_inj {v w : VersionInfo} (hv : validVersionB v = true)
    (hw : validVersionB w = true) (h : format_version v = format_version w) : v = w := by
  have h1 := parse_format v hv
  rw [h, parse_format w hw] at h1
  exact (Option.some_inj.mp h1).symm

/-! ### The build matrix data model (ImageBuild, BuildMatrix, Image) -/

/-- Model of `ImageBuild`. In Python this class has no `__eq__`/`__hash__`, so
set membership for its instances is object identity; sets of ImageBuilds are
therefore modelled as lists of (freshly constructed) elements. -/
structure ImageBuild where
  version : VersionInfo
  options : List (Option String)
deriving DecidableEq

/-- Model of `ImageBuild.get_formatted_version`: `semver.format_version(*self.version)`. -/
def ImageBuild.get_formatted_version (b : ImageBuild) : String := format_version b.version

/-- Model of `ImageBuild.filter_options`: `[str(x) for x in self.options if x is not None]`
(`str` on a `str` is the identity). -/
def ImageBuild.filter_options (b : ImageBuild) : List String := b.options.filterMap id

/-- Python `set.add` on a set of `ImageBuild`s: identity-based membership means
a freshly constructed object is always a new member. -/
def pyAddFreshBuild (s : List ImageBuild) (b : ImageBuild) : List ImageBuild := s ++ [b]

/-- First-match lookup in an insertion-ordered association list (Python `dict.get`). -/
def alGet : List (String × String) → String → Option String
  | [], _ => none
  | (k, v) :: rest, key => if k = key then some v else alGet rest key

/-- In-place update or append (Python `dict.__setitem__`). -/
def alSet : List (String × String) → String → String → List (String × String)
  | [], key, value => [(key, value)]
  | (k, v) :: rest, key, value =>
    if k = key then (k, value) :: rest else (k, v) :: alSet rest key value

/-- One iteration of the "Find latest versions" loop of `BuildMatrix.__init__`:
```
latest[major] = semver.max_ver(latest.get(major, "0.0.0"), version)
latest[minor] = semver.max_ver(latest.get(minor, "0.0.0"), version)
```
A `ValueError` from re-parsing (garbage prerelease/build strings) becomes `none`. -/
def matrixStepA (latest : List (String × String)) (label version : String) :
    Option (List (String × String)) :=
  (max_ver ((alGet latest label).getD "0.0.0") version).map (fun v1 => alSet latest label v1)

def matrixStep (latest : List (String × String)) (b : ImageBuild) :
    Option (List (String × String)) :=
  (matrixStepA latest (format_major_version b.version) b.get_formatted_version).bind
    (fun latest1 =>
      matrixStepA latest1 (format_minor_version b.version) b.get_formatted_version)

def computeCandidatesGo : List (String × String) → List ImageBuild →
    Option (List (String × String))
  | latest, [] => some latest
  | latest, b :: rest =>
    (matrixStep latest b).bind (fun latest1 => computeCandidatesGo latest1 rest)

/-- The full candidate map `label -> winning version string` built by
`BuildMatrix.__init__` over the (identity-based, hence list-modelled) build set. -/
def computeCandidates (bs : List ImageBuild) : Option (List (String × String)) :=
  computeCandidatesGo [] bs

/-- One iteration of the "Rehash latest versions" loop: add label `l` to the
set stored at key `version` (creating the entry when absent). -/
def addLabel : List (String × List String) → String → String → List (String × List String)
  | [], version, l => [(version, [l])]
  | (k, ls) :: rest, version, l =>
    if k = version then (k, if l ∈ ls then ls else ls ++ [l]) :: rest
    else (k, ls) :: addLabel rest version l

/-- The inversion `version string -> set of labels` (`self.latest`). -/
def rehash (cand : List (String × String)) : List (String × List String) :=
  cand.foldl (fun inv kv => addLabel inv kv.2 kv.1) []

/-- Model of a constructed `BuildMatrix`: the build set and the `latest` index. -/
structure BuildMatrix where
  builds : List ImageBuild
  latest : List (String × List String)
deriving DecidableEq

def mkBuildMatrix (bs : List ImageBuild) : Option BuildMatrix :=
  (computeCandidates bs).map (fun cand => ⟨bs, rehash cand⟩)

/-- Lookup in the `latest` index (`version in self.latest` / `self.latest[version]`). -/
def lookupLatest : List (String × List String) → String → Option (List String)
  | [], _ => none
  | (k, ls) :: rest, key => if k = key then some ls else lookupLatest rest key

/-- Model of `os.path.join(a, b)` (POSIX, two arguments). -/
def ospathJoin (a b : String) : String :=
  if b.data.head? = some '/' then b
  else if a = "" ∨ a.data.getLast? = some '/' then a ++ b
  else a ++ "/" ++ b

/-- Model of `Image`: a set of tags (structural string set) and a path. -/
structure Image where
  tags : Finset String
  path : String
deriving DecidableEq

/-- `"-".join([str(x) for x in [v] + list(build.options) if x is not None])`. -/
def joinTag (v : String) (b : ImageBuild) : String :=
  String.intercalate "-" (v :: b.filter_options)

/-- The bare `"%s.%s" % (major, minor)` string computed locally in
`BuildMatrix.build` (note: no prerelease/build suffix). -/
def bareMinorString (v : VersionInfo) : String :=
  natToString v.major ++ "." ++ natToString v.minor

/-- The body of the loop in `BuildMatrix.build` for one element. -/
def buildImage (latest : List (String × List String)) (basePath : String)
    (fullVersionPath : Bool) (b : ImageBuild) : Image :=
  let version := b.get_formatted_version
  let pathVersion := if fullVersionPath then version else bareMinorString b.version
  let versions : Finset String :=
    match lookupLatest latest version with
    | none => {version}
    | some ls => insert version ls.toFinset
  let tags := versions.image (fun v => joinTag v b)
  let path := ospathJoin basePath
    (String.intercalate "/" (pathVersion :: b.filter_options))
  ⟨tags, path⟩

/-- Model of `BuildMatrix.build`: one `(build, Image)` pair per element of the
(identity-based) build set. -/
def BuildMatrix.build (m : BuildMatrix) (basePath : String) (fullVersionPath : Bool) :
    List (ImageBuild × Image) :=
  m.builds.map (fun b => (b, buildImage m.latest basePath fullVersionPath b))

/-- The parsing loop of `create_build_matrix`: one fresh `ImageBuild` per
input pair; a parse failure (`ValueError`) aborts the whole construction. -/
def parseBuilds : List (String × List (Option String)) → Option (List ImageBuild)
  | [] => some []
  | p :: rest =>
    (parse_version_info p.1).bind (fun v =>
      (parseBuilds rest).map (fun bs => ImageBuild.mk v p.2 :: bs))

/-- Model of `create_build_matrix`: parse each `(version string, options)` input
pair into a fresh `ImageBuild` and construct the `BuildMatrix`. The input is a
Python set of tuples (structural equality), the output build set is
identity-based, hence one build per input pair. -/
def create_build_matrix (matrix : List (String × List (Option String))) :
    Option BuildMatrix :=
  (parseBuilds matrix).bind mkBuildMatrix

/-! ### Analysis of the `latest` computation -/

/-- `b` contributes to (competes for) label `L`. -/
def touchesLabel (L : String) (b : ImageBuild) : Prop :=
  format_major_version b.version = L ∨ format_minor_version b.version = L

instance (L : String) (b : ImageBuild) : Decidable (touchesLabel L b) := by
  unfold touchesLabel; infer_instance

/-- Total version of `max_ver` for stating fold simulations (the `none` case
never arises along executions of `matrixStep` that succeed). -/
def pyMax (a b : String) : String := (max_ver a b).getD a

/-- The effect of one `matrixStep` on the entry of a single fixed label `L`. -/
def candStep (L : String) (acc : Option String) (b : ImageBuild) : Option String :=
  if touchesLabel L b then some (pyMax (acc.getD "0.0.0") b.get_formatted_version) else acc

/-- `b` is not a prerelease/build variant of version 0.0.0 (such variants lose
to the `"0.0.0"` seed of the fold). -/
def seedOkB (b : ImageBuild) : Prop :=
  ¬(b.version.major = 0 ∧ b.version.minor = 0 ∧ b.version.patch = 0)
    ∨ (b.version.prerelease = none ∧ b.version.build = none)

instance (b : ImageBuild) : Decidable (seedOkB b) := by
  unfold seedOkB; infer_instance

def tripleLe (v w : VersionInfo) : Prop := tripleCmp v w = 0 ∨ tripleCmp v w = -1

theorem tripleLe_iff {v w : VersionInfo} : tripleLe v w ↔ tripleLt v w ∨ tripleEq v w := by
  constructor
  · intro h
    rcases tripleCmp_char v w with ⟨e, hl⟩ | ⟨e, he⟩ | ⟨e, hl⟩
    · exact Or.inl hl
    · exact Or.inr he
    · rcases h with h | h <;> rw [e] at h <;> exact absurd h (by norm_num)
  · intro h
    rcases tripleCmp_char v w with ⟨e, hl⟩ | ⟨e, he⟩ | ⟨e, hl⟩
    · exact Or.inr e
    · exact Or.inl e
    · exfalso
      rcases h with h | h
      · exact tripleLt_asymm h hl
      · unfold tripleLt at hl; unfold tripleEq at h; omega

theorem tripleLe_refl (v : VersionInfo) : tripleLe v v :=
  tripleLe_iff.mpr (Or.inr ⟨rfl, rfl, rfl⟩)

theorem tripleLe_trans {u v w : VersionInfo} (h1 : tripleLe u v) (h2 : tripleLe v w) :
    tripleLe u w := by
  rw [tripleLe_iff] at *
  unfold tripleLt tripleEq at *
  omega

theorem tripleLe_of_ge {v w : VersionInfo} (h : tripleCmp v w = 0 ∨ tripleCmp v w = 1) :
    tripleLe w v := by
  rw [tripleLe_iff]
  rcases h with h | h
  · have := tripleEq_of_tripleCmp_zero h
    unfold tripleEq at *
    exact Or.inr ⟨this.1.symm, this.2.1.symm, this.2.2.symm⟩
  · exact Or.inl (tripleLt_of_tripleCmp_one h)

theorem tripleLt_of_not_ge {v w : VersionInfo} (h : ¬(tripleCmp v w = 0 ∨ tripleCmp v w = 1)) :
    tripleLt v w := by
  rcases tripleCmp_char v w with ⟨e, hl⟩ | ⟨e, _⟩ | ⟨e, _⟩
  · exact hl
  · exact absurd (Or.inl e) h
  · exact absurd (Or.inr e) h

theorem tripleLe_of_lt {v w : VersionInfo} (h : tripleLt v w) : tripleLe v w :=
  tripleLe_iff.mpr (Or.inl h)

theorem tripleLe_trans_lt {u v w : VersionInfo} (h1 : tripleLe u v) (h2 : tripleLt v w) :
    tripleLe u w := by
  rw [tripleLe_iff] at *
  unfold tripleLt tripleEq at *
  omega

/-! Association-list facts -/

theorem alGet_alSet_self : ∀ (l : List (String × String)) (k v : String),
    alGet (alSet l k v) k = some v := by
  intro l
  induction l with
  | nil => intro k v; simp [alSet, alGet]
  | cons p rest ih =>
    obtain ⟨pk, pv⟩ := p
    intro k v
    by_cases hk : pk = k
    · simp only [alSet, if_pos hk, alGet]
    · simp only [alSet, if_neg hk, alGet]
      exact ih k v

theorem alGet_alSet_ne : ∀ (l : List (String × String)) {k k' : String} (v : String),
    k ≠ k' → alGet (alSet l k v) k' = alGet l k' := by
  intro l
  induction l with
  | nil =>
    intro k k' v h
    simp only [alSet, alGet]
    rw [if_neg h]
  | cons p rest ih =>
    obtain ⟨pk, pv⟩ := p
    intro k k' v h
    by_cases hk : pk = k
    · simp only [alSet, if_pos hk, alGet]
      have hne : ¬ pk = k' := by rw [hk]; exact h
      rw [if_neg hne, if_neg hne]
    · simp only [alSet, if_neg hk, alGet]
      by_cases hk' : pk = k'
      · rw [if_pos hk', if_pos hk']
      · rw [if_neg hk', if_neg hk']
        exact ih v h

theorem alGet_mem : ∀ {l : List (String × String)} {k v : String},
    alGet l k = some v → (k, v) ∈ l := by
  intro l
  induction l with
  | nil => intro k v h; exact absurd h (by simp [alGet])
  | cons p rest ih =>
    obtain ⟨pk, pv⟩ := p
    intro k v h
    simp only [alGet] at h
    by_cases hk : pk = k
    · rw [if_pos hk] at h
      injection h with h2
      subst hk
      subst h2
      exact List.mem_cons_self _ _
    · rw [if_neg hk] at h
      exact List.mem_cons_of_mem _ (ih h)

theorem alSet_keys : ∀ (l : List (String × String)) (k v : String),
    (alSet l k v).map Prod.fst = l.map Prod.fst
      ∨ (alSet l k v).map Prod.fst = l.map Prod.fst ++ [k] := by
  intro l
  induction l with
  | nil => intro k v; right; rfl
  | cons p rest ih =>
    obtain ⟨pk, pv⟩ := p
    intro k v
    by_cases hk : pk = k
    · left
      simp only [alSet, if_pos hk, List.map_cons]
    · rcases ih k v with h | h
      · left
        simp only [alSet, if_neg hk, List.map_cons, h]
      · right
        simp only [alSet, if_neg hk, List.map_cons, h, List.cons_append]

theorem alSet_keys_append_not_mem : ∀ (l : List (String × String)) (k v : String),
    (alSet l k v).map Prod.fst = l.map Prod.fst ++ [k] → k ∉ l.map Prod.fst := by
  intro l
  induction l with
  | nil => intro k v _; simp
  | cons p rest ih =>
    obtain ⟨pk, pv⟩ := p
    intro k v h hmem
    by_cases hk : pk = k
    · rw [show alSet ((pk, pv) :: rest) k v = (pk, v) :: rest from by
        simp [alSet, hk]] at h
      simp only [List.map_cons, List.cons_append] at h
      injection h with h1 h2
      have hlen := congrArg List.length h2
      simp at hlen
    · rw [show alSet ((pk, pv) :: rest) k v = (pk, pv) :: alSet rest k v from by
        simp [alSet, hk]] at h
      simp only [List.map_cons, List.cons_append] at h
      injection h with h1 h2
      rcases List.mem_cons.mp hmem with he | hmem2
      · exact hk he.symm
      · exact ih k v h2 hmem2

theorem alSet_keys_nodup {l : List (String × String)} (hn : (l.map Prod.fst).Nodup)
    (k v : String) : ((alSet l k v).map Prod.fst).Nodup := by
  rcases alSet_keys l k v with h | h
  · rw [h]; exact hn
  · rw [h]
    have hnk : k ∉ l.map Prod.fst := alSet_keys_append_not_mem l k v h
    simp only [List.nodup_append]
    exact ⟨hn, List.nodup_singleton k, by simpa using hnk⟩

/-! The fold simulation: `alGet` of the computed candidates per label -/

theorem matrixStep_eq_some {latest latest2 : List (String × String)} {b : ImageBuild}
    (h : matrixStep latest b = some latest2) :
    ∃ v1 v2,
      max_ver ((alGet latest (format_major_version b.version)).getD "0.0.0")
        b.get_formatted_version = some v1 ∧
      max_ver ((alGet (alSet latest (format_major_version b.version) v1)
          (format_minor_version b.version)).getD "0.0.0") b.get_formatted_version = some v2 ∧
      latest2 = alSet (alSet latest (format_major_version b.version) v1)
        (format_minor_version b.version) v2 := by
  unfold matrixStep matrixStepA at h
  simp only [Option.bind_eq_some, Option.map_eq_some'] at h
  obtain ⟨latest1, ⟨v1, hv1, hl1⟩, v2, hv2, hl2⟩ := h
  subst hl1
  exact ⟨v1, v2, hv1, hv2, hl2.symm⟩

theorem matrixStep_some_alGet {latest latest2 : List (String × String)} {b : ImageBuild}
    (h : matrixStep latest b = some latest2) (L : String) :
    alGet latest2 L = candStep L (alGet latest L) b := by
  obtain ⟨v1, v2, hv1, hv2, hlatest2⟩ := matrixStep_eq_some h
  have hne := major_label_ne_minor_label b.version b.version
  subst hlatest2
  unfold candStep
  by_cases hmaj : format_major_version b.version = L
  · subst hmaj
    have hminL : format_minor_version b.version ≠ format_major_version b.version :=
      fun hc => hne hc.symm
    rw [alGet_alSet_ne _ _ hminL, alGet_alSet_self]
    rw [if_pos (show touchesLabel (format_major_version b.version) b from Or.inl rfl)]
    unfold pyMax
    rw [hv1]
    rfl
  · by_cases hmin : format_minor_version b.version = L
    · subst hmin
      rw [alGet_alSet_self]
      rw [if_pos (show touchesLabel (format_minor_version b.version) b from Or.inr rfl)]
      rw [alGet_alSet_ne _ _ hne] at hv2
      unfold pyMax
      rw [hv2]
      rfl
    · rw [alGet_alSet_ne _ _ hmin, alGet_alSet_ne _ _ hmaj]
      rw [if_neg (show ¬ touchesLabel L b from by
        intro hc
        unfold touchesLabel at hc
        rcases hc with hc | hc
        · exact hmaj hc
        · exact hmin hc)]

theorem computeCandidatesGo_alGet :
    ∀ (bs : List ImageBuild) (latest0 cand : List (String × String)),
    computeCandidatesGo latest0 bs = some cand →
    ∀ L, alGet cand L = List.foldl (candStep L) (alGet latest0 L) bs := by
  intro bs
  induction bs with
  | nil =>
    intro latest0 cand h L
    simp only [computeCandidatesGo, Option.some_inj] at h
    rw [← h]
    rfl
  | cons b rest ih =>
    intro latest0 cand h L
    simp only [computeCandidatesGo, Option.bind_eq_some] at h
    obtain ⟨l1, hl1, hrest⟩ := h
    show alGet cand L = List.foldl (candStep L) (candStep L (alGet latest0 L) b) rest
    rw [← matrixStep_some_alGet hl1 L]
    exact ih l1 cand hrest L

theorem computeCandidates_alGet {bs : List ImageBuild} {cand : List (String × String)}
    (h : computeCandidates bs = some cand) (L : String) :
    alGet cand L = List.foldl (candStep L) none bs :=
  computeCandidatesGo_alGet bs [] cand h L

theorem matrixStep_keys_nodup {latest latest2 : List (String × String)} {b : ImageBuild}
    (h : matrixStep latest b = some latest2)
    (hn : (latest.map Prod.fst).Nodup) : (latest2.map Prod.fst).Nodup := by
  obtain ⟨v1, v2, _, _, hlatest2⟩ := matrixStep_eq_some h
  subst hlatest2
  exact alSet_keys_nodup (alSet_keys_nodup hn _ _) _ _

theorem computeCandidatesGo_keys_nodup :
    ∀ (bs : List ImageBuild) (latest0 cand : List (String × String)),
    computeCandidatesGo latest0 bs = some cand →
    (latest0.map Prod.fst).Nodup → (cand.map Prod.fst).Nodup := by
  intro bs
  induction bs with
  | nil =>
    intro latest0 cand h hn
    simp only [computeCandidatesGo, Option.some_inj] at h
    rw [← h]; exact hn
  | cons b rest ih =>
    intro latest0 cand h hn
    simp only [computeCandidatesGo, Option.bind_eq_some] at h
    obtain ⟨l1, hl1, hrest⟩ := h
    exact ih l1 cand hrest (matrixStep_keys_nodup hl1 hn)

theorem computeCandidates_keys_nodup {bs : List ImageBuild} {cand : List (String × String)}
    (h : computeCandidates bs = some cand) : (cand.map Prod.fst).Nodup :=
  computeCandidatesGo_keys_nodup bs [] cand h (by simp)

theorem pyMax_mem (a b : String) : pyMax a b = a ∨ pyMax a b = b := by
  unfold pyMax
  rcases hm : max_ver a b with _ | r
  · left; rfl
  · rcases max_ver_mem hm with h2 | h2
    · left; rw [Option.getD_some]; exact h2
    · right; rw [Option.getD_some]; exact h2

/-- Two builds competing for the same alias label carry the same prerelease. -/
theorem touchers_same_pre {L : String} {b1 b2 : ImageBuild}
    (hv1 : validVersionB b1.version = true) (hv2 : validVersionB b2.version = true)
    (h1 : touchesLabel L b1) (h2 : touchesLabel L b2) :
    b1.version.prerelease = b2.version.prerelease := by
  rcases h1 with h1 | h1 <;> rcases h2 with h2 | h2
  · exact (major_label_inj hv1 hv2 (h1.trans h2.symm)).2.1
  · exact absurd (h1.trans h2.symm) (major_label_ne_minor_label _ _)
  · exact absurd (h2.trans h1.symm) (major_label_ne_minor_label _ _)
  · exact (minor_label_inj hv1 hv2 (h1.trans h2.symm)).2.2.1

theorem pyMax_formatted {v w : VersionInfo} (hv : validVersionB v = true)
    (hw : validVersionB w = true) :
    pyMax (format_version v) (format_version w)
      = if vcompare v w = 0 ∨ vcompare v w = 1 then format_version v
        else format_version w := by
  unfold pyMax
  rw [max_ver_formatted hv hw, Option.getD_some]

theorem validDotted_ne_nil {p : List Char} (h : isValidDotted p = true) : p ≠ [] := by
  intro he
  subst he
  exact absurd h (by decide)

/-- Against a seed-compatible build, the `"0.0.0"` seed never wins. -/
theorem pyMax_seed (b : ImageBuild) (hv : validVersionB b.version = true) (hs : seedOkB b) :
    pyMax "0.0.0" b.get_formatted_version = b.get_formatted_version := by
  unfold ImageBuild.get_formatted_version pyMax
  rw [max_ver_seed_right hv, Option.getD_some]
  rcases hs with hs | hs
  · rw [vcompare_seed_lt hs, if_neg (by norm_num : ¬((-1 : Int) = 0 ∨ (-1 : Int) = 1))]
  · have hpre : seedV.prerelease = b.version.prerelease := by rw [hs.1]; rfl
    rw [vcompare_same_pre hpre]
    rcases tripleCmp_char seedV b.version with ⟨e, _⟩ | ⟨e, he⟩ | ⟨e, hl⟩
    · rw [e, if_neg (by norm_num : ¬((-1 : Int) = 0 ∨ (-1 : Int) = 1))]
    · rw [e, if_pos (Or.inl rfl)]
      have hb : b.version = seedV := by
        unfold tripleEq at he
        have e1 : seedV.major = 0 := rfl
        have e2 : seedV.minor = 0 := rfl
        have e3 : seedV.patch = 0 := rfl
        rw [e1, e2, e3] at he
        calc b.version
            = ⟨b.version.major, b.version.minor, b.version.patch,
               b.version.prerelease, b.version.build⟩ := rfl
          _ = ⟨0, 0, 0, none, none⟩ := by
              rw [← he.1, ← he.2.1, ← he.2.2, hs.1, hs.2]
          _ = seedV := rfl
      rw [hb, format_seed]
    · exfalso
      unfold tripleLt at hl
      have e1 : seedV.major = 0 := rfl
      have e2 : seedV.minor = 0 := rfl
      have e3 : seedV.patch = 0 := rfl
      rw [e1, e2, e3] at hl
      omega

theorem candStep_not_touch {L : String} {b : ImageBuild} (acc : Option String)
    (h : ¬ touchesLabel L b) : candStep L acc b = acc := by
  unfold candStep
  rw [if_neg h]

theorem candFold_provenance (L : String) :
    ∀ (bs : List ImageBuild) (acc : Option String) (V : String),
    List.foldl (candStep L) acc bs = some V →
    acc = some V ∨ V = "0.0.0" ∨ ∃ b ∈ bs, touchesLabel L b ∧ b.get_formatted_version = V := by
  intro bs
  induction bs with
  | nil => intro acc V h; exact Or.inl h
  | cons b rest ih =>
    intro acc V h
    rw [List.foldl_cons] at h
    rcases ih (candStep L acc b) V h with h2 | h2 | ⟨b', hb', ht', he'⟩
    · unfold candStep at h2
      by_cases htc : touchesLabel L b
      · rw [if_pos htc] at h2
        injection h2 with h3
        rcases pyMax_mem (acc.getD "0.0.0") b.get_formatted_version with hp | hp
        · rw [hp] at h3
          match hacc : acc with
          | none =>
            right; left
            exact h3.symm
          | some a =>
            left
            rw [Option.getD_some] at h3
            rw [h3]
        · right; right
          exact ⟨b, List.mem_cons_self b rest, htc, by rw [hp] at h3; exact h3⟩
      · rw [if_neg htc] at h2
        left; exact h2
    · right; left; exact h2
    · right; right; exact ⟨b', List.mem_cons_of_mem b hb', ht', he'⟩

theorem candStep_some (L : String) (a : String) (b : ImageBuild) :
    ∃ x, candStep L (some a) b = some x := by
  unfold candStep
  by_cases htc : touchesLabel L b
  · rw [if_pos htc]; exact ⟨_, rfl⟩
  · rw [if_neg htc]; exact ⟨a, rfl⟩

theorem candFold_isSome (L : String) :
    ∀ (bs : List ImageBuild) (a : String),
    ∃ V, List.foldl (candStep L) (some a) bs = some V := by
  intro bs
  induction bs with
  | nil => intro a; exact ⟨a, rfl⟩
  | cons b rest ih =>
    intro a
    obtain ⟨x, hx⟩ := candStep_some L a b
    rw [List.foldl_cons, hx]
    exact ih x

theorem candFold_touch (L : String) :
    ∀ (bs : List ImageBuild) (acc : Option String), (∃ b ∈ bs, touchesLabel L b) →
    ∃ V, List.foldl (candStep L) acc bs = some V := by
  intro bs
  induction bs with
  | nil =>
    intro acc h
    obtain ⟨b, hb, _⟩ := h
    exact absurd hb (List.not_mem_nil b)
  | cons b rest ih =>
    intro acc h
    obtain ⟨b', hb', ht'⟩ := h
    rw [List.foldl_cons]
    by_cases htc : touchesLabel L b
    · have hx : candStep L acc b = some (pyMax (acc.getD "0.0.0") b.get_formatted_version) := by
        unfold candStep; rw [if_pos htc]
      rw [hx]
      exact candFold_isSome L rest _
    · rcases List.mem_cons.mp hb' with rfl | hmem
      · exact absurd ht' htc
      · rw [candStep_not_touch acc htc]
        exact ih acc ⟨b', hmem, ht'⟩

theorem candFold_none (L : String) :
    ∀ (bs : List ImageBuild), (∀ b ∈ bs, ¬ touchesLabel L b) →
    List.foldl (candStep L) none bs = none := by
  intro bs
  induction bs with
  | nil => intro _; rfl
  | cons b rest ih =>
    intro h
    rw [List.foldl_cons, candStep_not_touch none (h b (List.mem_cons_self b rest))]
    exact ih (fun x hx => h x (List.mem_cons_of_mem b hx))

/-- Main fold invariant: starting from a formatted accumulator whose version
shares the bucket's prerelease, the fold computes the lexicographic maximum of
the numeric triples. -/
theorem candFold_max_go (L : String) :
    ∀ (bs : List ImageBuild) (vm : VersionInfo),
    (∀ b ∈ bs, validVersionB b.version = true) →
    (∀ b ∈ bs, touchesLabel L b → b.version.prerelease = vm.prerelease) →
    validVersionB vm = true →
    ∃ vm', validVersionB vm' = true ∧
      List.foldl (candStep L) (some (format_version vm)) bs = some (format_version vm') ∧
      (vm' = vm ∨ ∃ b ∈ bs, touchesLabel L b ∧ b.version = vm') ∧
      tripleLe vm vm' ∧
      (∀ b ∈ bs, touchesLabel L b → tripleLe b.version vm') := by
  intro bs
  induction bs with
  | nil =>
    intro vm _ _ hvm
    exact ⟨vm, hvm, rfl, Or.inl rfl, tripleLe_refl vm,
      fun b hb => absurd hb (List.not_mem_nil b)⟩
  | cons b rest ih =>
    intro vm hval hshare hvm
    rw [List.foldl_cons]
    by_cases htc : touchesLabel L b
    · have hvb : validVersionB b.version = true := hval b (List.mem_cons_self b rest)
      have hpre : b.version.prerelease = vm.prerelease :=
        hshare b (List.mem_cons_self b rest) htc
      have hstep : candStep L (some (format_version vm)) b
          = some (if tripleCmp vm b.version = 0 ∨ tripleCmp vm b.version = 1
                  then format_version vm else format_version b.version) := by
        unfold candStep
        rw [if_pos htc]
        rw [show (some (format_version vm)).getD "0.0.0" = format_version vm from rfl]
        unfold ImageBuild.get_formatted_version
        rw [pyMax_formatted hvm hvb, vcompare_same_pre hpre.symm]
      rw [hstep]
      by_cases hge : tripleCmp vm b.version = 0 ∨ tripleCmp vm b.version = 1
      · rw [if_pos hge]
        obtain ⟨vm', hvm', hfold, hprov, hle, hall⟩ := ih vm
          (fun x hx => hval x (List.mem_cons_of_mem _ hx))
          (fun x hx ht => hshare x (List.mem_cons_of_mem _ hx) ht) hvm
        refine ⟨vm', hvm', hfold, ?_, hle, ?_⟩
        · rcases hprov with h | ⟨b', hb', ht', he'⟩
          · exact Or.inl h
          · exact Or.inr ⟨b', List.mem_cons_of_mem _ hb', ht', he'⟩
        · intro x hx htx
          rcases List.mem_cons.mp hx with rfl | hmem
          · exact tripleLe_trans (tripleLe_of_ge hge) hle
          · exact hall x hmem htx
      · rw [if_neg hge]
        have hlt : tripleLt vm b.version := tripleLt_of_not_ge hge
        obtain ⟨vm', hvm', hfold, hprov, hle, hall⟩ := ih b.version
          (fun x hx => hval x (List.mem_cons_of_mem _ hx))
          (fun x hx ht => (hshare x (List.mem_cons_of_mem _ hx) ht).trans hpre.symm) hvb
        refine ⟨vm', hvm', hfold, ?_, ?_, ?_⟩
        · rcases hprov with h | ⟨b', hb', ht', he'⟩
          · exact Or.inr ⟨b, List.mem_cons_self b rest, htc, h.symm⟩
          · exact Or.inr ⟨b', List.mem_cons_of_mem _ hb', ht', he'⟩
        · exact tripleLe_trans (tripleLe_of_lt hlt) hle
        · intro x hx htx
          rcases List.mem_cons.mp hx with rfl | hmem
          · exact hle
          · exact hall x hmem htx
    · rw [candStep_not_touch _ htc]
      obtain ⟨vm', hvm', hfold, hprov, hle, hall⟩ := ih vm
        (fun x hx => hval x (List.mem_cons_of_mem _ hx))
        (fun x hx ht => hshare x (List.mem_cons_of_mem _ hx) ht) hvm
      refine ⟨vm', hvm', hfold, ?_, hle, ?_⟩
      · rcases hprov with h | ⟨b', hb', ht', he'⟩
        · exact Or.inl h
        · exact Or.inr ⟨b', List.mem_cons_of_mem _ hb', ht', he'⟩
      · intro x hx htx
        rcases List.mem_cons.mp hx with rfl | hmem
        · exact absurd htx htc
        · exact hall x hmem htx

/-- The fold over a bucket computes the maximum element (by numeric triple)
of the bucket, provided no element is a 0.0.0 prerelease/build variant. -/
theorem candFold_max (L : String) :
    ∀ (bs : List ImageBuild),
    (∀ b ∈ bs, validVersionB b.version = true) →
    (∀ b ∈ bs, seedOkB b) →
    (∃ b ∈ bs, touchesLabel L b) →
    ∃ bm, bm ∈ bs ∧ touchesLabel L bm ∧
      List.foldl (candStep L) none bs = some bm.get_formatted_version ∧
      ∀ b ∈ bs, touchesLabel L b → tripleLe b.version bm.version := by
  intro bs
  induction bs with
  | nil =>
    intro _ _ htouch
    obtain ⟨b, hb, _⟩ := htouch
    exact absurd hb (List.not_mem_nil b)
  | cons b rest ih =>
    intro hval hseed htouch
    rw [List.foldl_cons]
    by_cases htc : touchesLabel L b
    · have hvb := hval b (List.mem_cons_self b rest)
      have hstep : candStep L none b = some (format_version b.version) := by
        unfold candStep
        rw [if_pos htc]
        rw [show (none : Option String).getD "0.0.0" = "0.0.0" from rfl]
        rw [pyMax_seed b hvb (hseed b (List.mem_cons_self b rest))]
        rfl
      rw [hstep]
      obtain ⟨vm', hvm', hfold, hprov, hle, hall⟩ := candFold_max_go L rest b.version
        (fun x hx => hval x (List.mem_cons_of_mem _ hx))
        (fun x hx ht => touchers_same_pre (hval x (List.mem_cons_of_mem _ hx)) hvb ht htc)
        hvb
      rcases hprov with he | ⟨b', hb', ht', he'⟩
      · refine ⟨b, List.mem_cons_self b rest, htc, ?_, ?_⟩
        · rw [he] at hfold
          exact hfold
        · intro x hx htx
          rcases List.mem_cons.mp hx with rfl | hmem
          · exact tripleLe_refl _
          · have := hall x hmem htx
            rw [he] at this
            exact this
      · refine ⟨b', List.mem_cons_of_mem b hb', ht', ?_, ?_⟩
        · rw [← he'] at hfold
          exact hfold
        · intro x hx htx
          rcases List.mem_cons.mp hx with rfl | hmem
          · rw [← he'] at hle
            exact hle
          · have := hall x hmem htx
            rw [← he'] at this
            exact this
    · rw [candStep_not_touch none htc]
      have htouch' : ∃ x ∈ rest, touchesLabel L x := by
        obtain ⟨x, hx, ht⟩ := htouch
        rcases List.mem_cons.mp hx with rfl | hmem
        · exact absurd ht htc
        · exact ⟨x, hmem, ht⟩
      obtain ⟨bm, hbm, htm, hfold, hall⟩ := ih
        (fun x hx => hval x (List.mem_cons_of_mem _ hx))
        (fun x hx => hseed x (List.mem_cons_of_mem _ hx)) htouch'
      refine ⟨bm, List.mem_cons_of_mem b hbm, htm, hfold, ?_⟩
      intro x hx htx
      rcases List.mem_cons.mp hx with rfl | hmem
      · exact absurd htx htc
      · exact hall x hmem htx

/-! ### Analysis of the "rehash" inversion -/

/-- The `latest` index assigns label `L` to version-string key `K`. -/
def latestAssigns (inv : List (String × List String)) (L K : String) : Prop :=
  ∃ ls, lookupLatest inv K = some ls ∧ L ∈ ls

theorem mem_alGet : ∀ {l : List (String × String)},
    (l.map Prod.fst).Nodup → ∀ {k v : String}, (k, v) ∈ l → alGet l k = some v := by
  intro l
  induction l with
  | nil => intro _ k v h; exact absurd h (List.not_mem_nil _)
  | cons p rest ih =>
    obtain ⟨pk, pv⟩ := p
    intro hn k v h
    simp only [List.map_cons, List.nodup_cons] at hn
    rcases List.mem_cons.mp h with he | hm
    · have h1 : k = pk := congrArg Prod.fst he
      have h2 : v = pv := congrArg Prod.snd he
      simp only [alGet]
      rw [if_pos h1.symm, h2]
    · by_cases hk : pk = k
      · exfalso
        exact hn.1 (by rw [hk]; exact List.mem_map.mpr ⟨(k, v), hm, rfl⟩)
      · simp only [alGet]
        rw [if_neg hk]
        exact ih hn.2 hm

theorem nodup_keys_unique : ∀ {cand : List (String × String)},
    (cand.map Prod.fst).Nodup →
    ∀ {L K1 K2 : String}, (L, K1) ∈ cand → (L, K2) ∈ cand → K1 = K2 := by
  intro cand
  induction cand with
  | nil => intro _ L K1 K2 h1 _; exact absurd h1 (List.not_mem_nil _)
  | cons p rest ih =>
    obtain ⟨pk, pv⟩ := p
    intro hn L K1 K2 h1 h2
    simp only [List.map_cons, List.nodup_cons] at hn
    rcases List.mem_cons.mp h1 with he1 | hm1 <;> rcases List.mem_cons.mp h2 with he2 | hm2
    · rw [show K1 = pv from congrArg Prod.snd he1, show K2 = pv from congrArg Prod.snd he2]
    · exfalso
      have hL : L = pk := congrArg Prod.fst he1
      exact hn.1 (by rw [← hL]; exact List.mem_map.mpr ⟨(L, K2), hm2, rfl⟩)
    · exfalso
      have hL : L = pk := congrArg Prod.fst he2
      exact hn.1 (by rw [← hL]; exact List.mem_map.mpr ⟨(L, K1), hm1, rfl⟩)
    · exact ih hn.2 hm1 hm2

theorem lookupLatest_addLabel_self_none :
    ∀ {inv : List (String × List String)} {V : String} (l : String),
    lookupLatest inv V = none → lookupLatest (addLabel inv V l) V = some [l] := by
  intro inv
  induction inv with
  | nil => intro V l _; simp [addLabel, lookupLatest]
  | cons p rest ih =>
    obtain ⟨pk, pls⟩ := p
    intro V l h
    simp only [lookupLatest] at h
    by_cases hk : pk = V
    · rw [if_pos hk] at h
      exact absurd h (by simp)
    · rw [if_neg hk] at h
      simp only [addLabel, if_neg hk, lookupLatest]
      exact ih l h

theorem lookupLatest_addLabel_self_some :
    ∀ {inv : List (String × List String)} {V : String} (l : String) {ls : List String},
    lookupLatest inv V = some ls →
    lookupLatest (addLabel inv V l) V = some (if l ∈ ls then ls else ls ++ [l]) := by
  intro inv
  induction inv with
  | nil => intro V l ls h; exact absurd h (by simp [lookupLatest])
  | cons p rest ih =>
    obtain ⟨pk, pls⟩ := p
    intro V l ls h
    simp only [lookupLatest] at h
    by_cases hk : pk = V
    · rw [if_pos hk] at h
      injection h with h2
      subst h2
      simp only [addLabel, if_pos hk, lookupLatest]
    · rw [if_neg hk] at h
      simp only [addLabel, if_neg hk, lookupLatest]
      exact ih l h

theorem lookupLatest_addLabel_ne :
    ∀ {inv : List (String × List String)} {V K : String} (l : String), K ≠ V →
    lookupLatest (addLabel inv V l) K = lookupLatest inv K := by
  intro inv
  induction inv with
  | nil =>
    intro V K l h
    simp only [addLabel, lookupLatest]
    rw [if_neg (fun hc => h hc.symm)]
  | cons p rest ih =>
    obtain ⟨pk, pls⟩ := p
    intro V K l h
    by_cases hk : pk = V
    · simp only [addLabel, if_pos hk, lookupLatest]
      have hne : ¬ pk = K := by rw [hk]; exact fun hc => h hc.symm
      rw [if_neg hne, if_neg hne]
    · simp only [addLabel, if_neg hk, lookupLatest]
      by_cases hk' : pk = K
      · rw [if_pos hk', if_pos hk']
      · rw [if_neg hk', if_neg hk']
        exact ih l h

theorem latestAssigns_addLabel {inv : List (String × List String)} {V l L K : String} :
    latestAssigns (addLabel inv V l) L K ↔ latestAssigns inv L K ∨ (L = l ∧ K = V) := by
  by_cases hKV : K = V
  · subst hKV
    match hlk : lookupLatest inv K with
    | none =>
      constructor
      · rintro ⟨ls, hls, hmem⟩
        rw [lookupLatest_addLabel_self_none l hlk] at hls
        injection hls with h2
        subst h2
        exact Or.inr ⟨List.mem_singleton.mp hmem, rfl⟩
      · rintro (⟨ls, hls, _⟩ | ⟨hLl, _⟩)
        · rw [hlk] at hls
          exact absurd hls (by simp)
        · exact ⟨[l], lookupLatest_addLabel_self_none l hlk,
            by rw [hLl]; exact List.mem_singleton_self l⟩
    | some ls0 =>
      constructor
      · rintro ⟨ls, hls, hmem⟩
        rw [lookupLatest_addLabel_self_some l hlk] at hls
        injection hls with h2
        subst h2
        by_cases hl : l ∈ ls0
        · rw [if_pos hl] at hmem
          exact Or.inl ⟨ls0, hlk, hmem⟩
        · rw [if_neg hl] at hmem
          rcases List.mem_append.mp hmem with hm | hm
          · exact Or.inl ⟨ls0, hlk, hm⟩
          · exact Or.inr ⟨List.mem_singleton.mp hm, rfl⟩
      · rintro (⟨ls, hls, hmem⟩ | ⟨hLl, _⟩)
        · rw [hlk] at hls
          injection hls with h2
          rw [← h2] at hmem
          refine ⟨_, lookupLatest_addLabel_self_some l hlk, ?_⟩
          by_cases hl : l ∈ ls0
          · rw [if_pos hl]; exact hmem
          · rw [if_neg hl]; exact List.mem_append_left _ hmem
        · refine ⟨_, lookupLatest_addLabel_self_some l hlk, ?_⟩
          by_cases hl : l ∈ ls0
          · rw [if_pos hl, hLl]; exact hl
          · rw [if_neg hl, hLl]
            exact List.mem_append_right _ (List.mem_singleton_self l)
  · constructor
    · rintro ⟨ls, hls, hmem⟩
      rw [lookupLatest_addLabel_ne l hKV] at hls
      exact Or.inl ⟨ls, hls, hmem⟩
    · rintro (⟨ls, hls, hmem⟩ | ⟨_, hKV2⟩)
      · exact ⟨ls, by rw [lookupLatest_addLabel_ne l hKV]; exact hls, hmem⟩
      · exact absurd hKV2 hKV

theorem rehash_go : ∀ (items : List (String × String)) (inv : List (String × List String))
    (L K : String),
    latestAssigns (items.foldl (fun inv kv => addLabel inv kv.2 kv.1) inv) L K
      ↔ latestAssigns inv L K ∨ (L, K) ∈ items := by
  intro items
  induction items with
  | nil =>
    intro inv L K
    simp only [List.foldl_nil, List.not_mem_nil, or_false]
  | cons kv rest ih =>
    obtain ⟨l0, v0⟩ := kv
    intro inv L K
    rw [List.foldl_cons, ih, latestAssigns_addLabel]
    constructor
    · rintro ((h | ⟨h1, h2⟩) | h)
      · exact Or.inl h
      · right
        rw [h1, h2]
        exact List.mem_cons_self _ _
      · exact Or.inr (List.mem_cons_of_mem _ h)
    · rintro (h | h)
      · exact Or.inl (Or.inl h)
      · rcases List.mem_cons.mp h with he | hm
        · exact Or.inl (Or.inr ⟨congrArg Prod.fst he, congrArg Prod.snd he⟩)
        · exact Or.inr hm

/-- Membership in the rehashed `latest` index is exactly membership in the
candidate map. -/
theorem latestAssigns_rehash {cand : List (String × String)} {L K : String} :
    latestAssigns (rehash cand) L K ↔ (L, K) ∈ cand := by
  unfold rehash
  rw [rehash_go]
  constructor
  · rintro (⟨ls, hls, _⟩ | h)
    · exact absurd hls (by simp [lookupLatest])
    · exact h
  · exact Or.inr

theorem addLabel_lookup_ne_nil {inv : List (String × List String)}
    (hinv : ∀ k ls, lookupLatest inv k = some ls → ls ≠ []) (V l : String) :
    ∀ k ls, lookupLatest (addLabel inv V l) k = some ls → ls ≠ [] := by
  intro k ls h
  by_cases hk : k = V
  · subst hk
    match hlk : lookupLatest inv k with
    | none =>
      rw [lookupLatest_addLabel_self_none l hlk] at h
      injection h with h2
      subst h2
      simp
    | some ls0 =>
      rw [lookupLatest_addLabel_self_some l hlk] at h
      injection h with h2
      subst h2
      by_cases hl : l ∈ ls0
      · rw [if_pos hl]
        exact hinv k ls0 hlk
      · rw [if_neg hl]
        simp
  · rw [lookupLatest_addLabel_ne l hk] at h
    exact hinv k ls h

theorem rehash_go_ne_nil : ∀ (items : List (String × String))
    (inv : List (String × List String)),
    (∀ k ls, lookupLatest inv k = some ls → ls ≠ []) →
    ∀ k ls, lookupLatest (items.foldl (fun inv kv => addLabel inv kv.2 kv.1) inv) k = some ls →
      ls ≠ [] := by
  intro items
  induction items with
  | nil => intro inv h; exact h
  | cons kv rest ih =>
    intro inv h
    rw [List.foldl_cons]
    exact ih _ (addLabel_lookup_ne_nil h _ _)

/-- Every key of the rehashed index carries at least one label, and that label
points back into the candidate map. -/
theorem latest_key_has_label {cand : List (String × String)} {K : String} {ls : List String}
    (h : lookupLatest (rehash cand) K = some ls) : ∃ l, (l, K) ∈ cand := by
  have hne : ls ≠ [] := by
    refine rehash_go_ne_nil cand [] ?_ K ls h
    intro k ls0 h0
    exact absurd h0 (by simp [lookupLatest])
  match ls, hne, h with
  | l :: rest2, _, h =>
    exact ⟨l, latestAssigns_rehash.mp ⟨l :: rest2, h, List.mem_cons_self l rest2⟩⟩

/-! ### Parse-then-format round trip -/

theorem parseWithParts_some {core : List Char} {pre bd : Option (List Char)} {v : VersionInfo}
    (h : parseWithParts core pre bd = some v) :
    coreChars v = core ∧ v.prerelease = pre.map String.mk ∧ v.build = bd.map String.mk
      ∧ validVersionB v = true := by
  unfold parseWithParts at h
  match hsp : splitOnChar '.' core with
  | [] => rw [hsp] at h; exact absurd h (by simp [parseFromChunks])
  | [a] => rw [hsp] at h; exact absurd h (by simp [parseFromChunks])
  | [a, b] => rw [hsp] at h; exact absurd h (by simp [parseFromChunks])
  | a :: b :: c :: d :: t => rw [hsp] at h; exact absurd h (by simp [parseFromChunks])
  | [mj, mn, pt] =>
    rw [hsp] at h
    simp only [parseFromChunks] at h
    split at h
    case isTrue hcond =>
      injection h with h2
      subst h2
      simp only [Bool.and_eq_true] at hcond
      obtain ⟨⟨⟨⟨hc1, hc2⟩, hc3⟩, hp⟩, hb⟩ := hcond
      refine ⟨?_, rfl, rfl, ?_⟩
      · show natToDigits (digitsToNat mj)
          ++ ('.' :: (natToDigits (digitsToNat mn) ++ ('.' :: natToDigits (digitsToNat pt))))
          = core
        rw [natToDigits_digitsToNat mj hc1, natToDigits_digitsToNat mn hc2,
          natToDigits_digitsToNat pt hc3]
        have hj := @joinWith_splitOnChar '.' core
        rw [hsp] at hj
        simp only [joinWith] at hj
        exact hj
      · unfold validVersionB
        simp only [Bool.and_eq_true]
        constructor
        · match hpre : pre with
          | none => rfl
          | some p => exact hp
        · match hbd : bd with
          | none => rfl
          | some b => exact hb
    case isFalse =>
      exact Option.noConfusion h

theorem parseSplitPre_some {bp : List Char} {bd : Option (List Char)} {v : VersionInfo}
    (h : parseSplitPre bp bd = some v) :
    coreChars v ++ preSufChars v = bp ∧ v.build = bd.map String.mk
      ∧ validVersionB v = true := by
  unfold parseSplitPre at h
  match hsp : splitAtChar '-' bp with
  | none =>
    rw [hsp] at h
    simp only [parseSplitPreAux] at h
    obtain ⟨hc, hp, hb, hval⟩ := parseWithParts_some h
    have hps : preSufChars v = [] := by
      unfold preSufChars
      rw [hp]
      rfl
    exact ⟨by rw [hps, List.append_nil, hc], hb, hval⟩
  | some q =>
    rw [hsp] at h
    simp only [parseSplitPreAux] at h
    obtain ⟨hcs, hnm⟩ := splitAtChar_eq_some hsp
    obtain ⟨hc, hp, hb, hval⟩ := parseWithParts_some h
    have hps : preSufChars v = '-' :: q.2 := by
      unfold preSufChars
      rw [hp]
      simp only [Option.map_some', optSufChars]
    refine ⟨?_, hb, hval⟩
    rw [hps, hc, hcs]

theorem parseVersionChars_some {cs : List Char} {v : VersionInfo}
    (h : parseVersionChars cs = some v) :
    formatChars v = cs ∧ validVersionB v = true := by
  unfold parseVersionChars at h
  match hsp : splitAtChar '+' cs with
  | none =>
    rw [hsp] at h
    simp only [parseVersionCharsAux] at h
    obtain ⟨hcp, hb, hval⟩ := parseSplitPre_some h
    have hbs : buildSufChars v = [] := by
      unfold buildSufChars
      rw [hb]
      rfl
    refine ⟨?_, hval⟩
    unfold formatChars
    rw [hbs, List.append_nil, hcp]
  | some p =>
    rw [hsp] at h
    simp only [parseVersionCharsAux] at h
    obtain ⟨hcs2, hnm⟩ := splitAtChar_eq_some hsp
    obtain ⟨hcp, hb, hval⟩ := parseSplitPre_some h
    have hbs : buildSufChars v = '+' :: p.2 := by
      unfold buildSufChars
      rw [hb]
      simp only [Option.map_some', optSufChars]
    refine ⟨?_, hval⟩
    unfold formatChars
    rw [hbs, hcp, hcs2]

/-- A successfully parsed version formats back to the input string. -/
theorem format_parse {s : String} {v : VersionInfo} (h : parse_version_info s = some v) :
    format_version v = s := by
  unfold parse_version_info at h
  have hc := (parseVersionChars_some h).1
  show String.mk (formatChars v) = s
  rw [hc]

/-- A successfully parsed version satisfies the grammar validity predicate. -/
theorem parse_valid {s : String} {v : VersionInfo} (h : parse_version_info s = some v) :
    validVersionB v = true :=
  (parseVersionChars_some h).2

/-! ### Registry updater (model of HubUpdater) -/

def API_URL : String := "https://hub.docker.com/v2"

/-- Message of the exception raised by `clear_builds`/`add_builds` when no
login has happened (the spec's `NotAuthenticatedError`). -/
def notAuthenticatedMsg : String := "You need to login first"

structure HubUpdater where
  username : String
  password : String
  token : Option String
deriving DecidableEq

/-- Fresh instance: the class attribute `token = None`. -/
def mkHubUpdater (u p : String) : HubUpdater := ⟨u, p, none⟩

inductive HttpMethod
  | get
  | post
  | delete
deriving DecidableEq

structure HttpRequest where
  method : HttpMethod
  url : String
deriving DecidableEq

/-- One page of the paginated autobuild-tags listing. -/
structure PageBody where
  results : List String
  next : Option String

/-- The remote registry as response oracles for GET pages and DELETE calls. -/
structure HubWorld where
  getPage : String → Nat × PageBody
  deleteResp : String → Nat × String

/-- The `while not (body["next"] is None)` pagination loop; the loop is
unbounded in Python, so the model carries fuel (never reached by the claims
settled here, which exercise the unauthenticated path). -/
def paginate (world : HubWorld) : Nat → PageBody → List String → List HttpRequest →
    List HttpRequest × Except String (List String)
  | fuel, body, acc, reqs =>
    match body.next with
    | none => (reqs, Except.ok acc)
    | some url =>
      match fuel with
      | 0 => (reqs, Except.error "pagination fuel exhausted")
      | fuel' + 1 =>
        let st := (world.getPage url).1
        let b2 := (world.getPage url).2
        let reqs2 := reqs ++ [⟨HttpMethod.get, url⟩]
        if st = 200 then paginate world fuel' b2 (acc ++ b2.results) reqs2
        else (reqs2, Except.error "Invalid response")

/-- The deletion loop at the end of `clear_builds`. -/
def deleteAll (world : HubWorld) (repo : String) : List String → List HttpRequest →
    List HttpRequest × Except String Unit
  | [], reqs => (reqs, Except.ok ())
  | i :: rest, reqs =>
    let url := API_URL ++ "/repositories/" ++ repo ++ "/autobuild/tags/" ++ i ++ "/"
    let st := (world.deleteResp i).1
    let text := (world.deleteResp i).2
    let reqs2 := reqs ++ [⟨HttpMethod.delete, url⟩]
    if st = 204 then deleteAll world repo rest reqs2
    else (reqs2, Except.error ("ERROR [" ++ natToString st ++ "]: " ++ text))

/-- Model of `HubUpdater.clear_builds`: raises (returns an error) before any
HTTP call when `token is None`; otherwise lists all pages and deletes each
returned build. The returned `HubUpdater` is the (never mutated) receiver, and
the request list is the trace of issued HTTP calls. -/
def HubUpdater.clear_builds (u : HubUpdater) (repo : String) (world : HubWorld)
    (fuel : Nat) : HubUpdater × List HttpRequest × Except String Unit :=
  match u.token with
  | none => (u, [], Except.error notAuthenticatedMsg)
  | some _ =>
    let url := API_URL ++ "/repositories/" ++ repo ++ "/autobuild/tags/"
    let st := (world.getPage url).1
    let body := (world.getPage url).2
    let reqs := [(⟨HttpMethod.get, url⟩ : HttpRequest)]
    if st = 200 then
      match paginate world fuel body body.results reqs with
      | (reqs2, Except.ok ids) =>
        match deleteAll world repo ids reqs2 with
        | (reqs3, r) => (u, reqs3, r)
      | (reqs2, Except.error e) => (u, reqs2, Except.error e)
    else (u, reqs, Except.error "Invalid response")

/-! ### Properties of create_build_matrix -/

theorem parseBuilds_spec : ∀ (input : List (String × List (Option String)))
    (builds : List ImageBuild), parseBuilds input = some builds →
    builds.length = input.length ∧
    (∀ bb ∈ builds, ∃ q ∈ input, parse_version_info q.1 = some bb.version
      ∧ q.2 = bb.options) ∧
    (input.Nodup → builds.Nodup) := by
  intro input
  induction input with
  | nil =>
    intro builds h
    simp only [parseBuilds, Option.some_inj] at h
    subst h
    exact ⟨rfl, fun bb hbb => absurd hbb (List.not_mem_nil bb),
      fun _ => List.nodup_nil⟩
  | cons q rest ih =>
    intro builds h
    simp only [parseBuilds, Option.bind_eq_some, Option.map_eq_some'] at h
    obtain ⟨v, hv, rest', hrest', hbuilds⟩ := h
    subst hbuilds
    obtain ⟨hlen, hmem, hnd⟩ := ih rest' hrest'
    refine ⟨by simp [hlen], ?_, ?_⟩
    · intro bb hbb
      rcases List.mem_cons.mp hbb with rfl | hbb2
      · exact ⟨q, List.mem_cons_self q rest, hv, rfl⟩
      · obtain ⟨q', hq', hp', ho'⟩ := hmem bb hbb2
        exact ⟨q', List.mem_cons_of_mem q hq', hp', ho'⟩
    · intro hnodup
      simp only [List.nodup_cons] at hnodup ⊢
      refine ⟨?_, hnd hnodup.2⟩
      intro hin
      obtain ⟨q', hq', hp', ho'⟩ := hmem _ hin
      have hq1 : q.1 = format_version v := (format_parse hv).symm
      have hq1' : q'.1 = format_version v := (format_parse hp').symm
      have : q = q' := by
        obtain ⟨q1, q2⟩ := q
        obtain ⟨q1', q2'⟩ := q'
        simp only at hq1 hq1' ho'
        rw [show q1 = q1' from hq1.trans hq1'.symm, ho'.symm]
      exact hnodup.1 (this ▸ hq')

theorem create_build_matrix_some {input : List (String × List (Option String))}
    {m : BuildMatrix} (hm : create_build_matrix input = some m) :
    ∃ cand, parseBuilds input = some m.builds
      ∧ computeCandidates m.builds = some cand ∧ m.latest = rehash cand := by
  unfold create_build_matrix mkBuildMatrix at hm
  simp only [Option.bind_eq_some, Option.map_eq_some'] at hm
  obtain ⟨builds, hbuilds, cand, hcand, hmk⟩ := hm
  subst hmk
  exact ⟨cand, hbuilds, hcand, rfl⟩

/-! ### The claims -/

/-- Claim C7: for every valid version string `s` of the form
`MAJOR.MINOR.PATCH[-PRERELEASE][+BUILD]` (i.e. every string accepted by
`parse_version_info`), formatting the parsed version yields the original
string back: `format(parse(s)) = s`. -/
theorem claim_C7_parse_format_round_trip (s : String) (v : VersionInfo)
    (h : parse_version_info s = some v) : format_version v = s :=
  format_parse h

theorem claim_C7_witness :
    format_version ⟨1, 2, 3, some "beta.4", some "build-x"⟩ = "1.2.3-beta.4+build-x" :=
  claim_C7_parse_format_round_trip "1.2.3-beta.4+build-x"
    ⟨1, 2, 3, some "beta.4", some "build-x"⟩ (by decide)

/-- Claim C8: calling `clear_builds` before a successful authentication fails
with the not-authenticated error (`"You need to login first"`, the spec's
`NotAuthenticatedError`) and issues zero HTTP requests; the updater state is
returned unchanged and remains unauthenticated. -/
theorem claim_C8_clear_builds_unauthenticated (u : HubUpdater) (repo : String)
    (world : HubWorld) (fuel : Nat) (h : u.token = none) :
    u.clear_builds repo world fuel = (u, [], Except.error notAuthenticatedMsg)
      ∧ (u.clear_builds repo world fuel).1.token = none := by
  obtain ⟨un, pw, tok⟩ := u
  have h2 : tok = none := h
  subst h2
  exact ⟨rfl, rfl⟩

theorem claim_C8_witness :
    HubUpdater.clear_builds (mkHubUpdater "user" "pw") "library/app"
        ⟨fun _ => (404, ⟨[], none⟩), fun _ => (404, "")⟩ 5
      = (mkHubUpdater "user" "pw", [], Except.error notAuthenticatedMsg) :=
  (claim_C8_clear_builds_unauthenticated (mkHubUpdater "user" "pw") "library/app"
    ⟨fun _ => (404, ⟨[], none⟩), fun _ => (404, "")⟩ 5 rfl).1

/-- Claim C5: re-running expand (`BuildMatrix.build`) on an unchanged
`BuildMatrix` with identical arguments yields identical results, and the
result is — as a set of `(element, image)` pairs — independent of the
iteration order of the (unordered) build set. -/
theorem claim_C5_expand_idempotent (m : BuildMatrix) (bs2 : List ImageBuild)
    (basePath : String) (full : Bool) (hperm : m.builds.Perm bs2) :
    m.build basePath full = m.build basePath full
      ∧ ∀ x, x ∈ m.build basePath full ↔ x ∈ BuildMatrix.build ⟨bs2, m.latest⟩ basePath full := by
  refine ⟨rfl, fun x => ?_⟩
  unfold BuildMatrix.build
  exact (hperm.map (fun b => (b, buildImage m.latest basePath full b))).mem_iff

theorem claim_C5_witness :
    (BuildMatrix.build ⟨[⟨⟨1, 0, 0, none, none⟩, [some "option"]⟩, ⟨⟨2, 0, 0, none, none⟩, []⟩],
        [("1.0.0", ["1", "1.0"]), ("2.0.0", ["2", "2.0"])]⟩ "dist" false
      = BuildMatrix.build ⟨[⟨⟨1, 0, 0, none, none⟩, [some "option"]⟩, ⟨⟨2, 0, 0, none, none⟩, []⟩],
        [("1.0.0", ["1", "1.0"]), ("2.0.0", ["2", "2.0"])]⟩ "dist" false)
    ∧ ∀ x, x ∈ BuildMatrix.build ⟨[⟨⟨1, 0, 0, none, none⟩, [some "option"]⟩,
          ⟨⟨2, 0, 0, none, none⟩, []⟩],
        [("1.0.0", ["1", "1.0"]), ("2.0.0", ["2", "2.0"])]⟩ "dist" false
      ↔ x ∈ BuildMatrix.build ⟨[⟨⟨2, 0, 0, none, none⟩, []⟩, ⟨⟨1, 0, 0, none, none⟩, [some "option"]⟩],
        [("1.0.0", ["1", "1.0"]), ("2.0.0", ["2", "2.0"])]⟩ "dist" false :=
  claim_C5_expand_idempotent
    ⟨[⟨⟨1, 0, 0, none, none⟩, [some "option"]⟩, ⟨⟨2, 0, 0, none, none⟩, []⟩],
      [("1.0.0", ["1", "1.0"]), ("2.0.0", ["2", "2.0"])]⟩
    [⟨⟨2, 0, 0, none, none⟩, []⟩, ⟨⟨1, 0, 0, none, none⟩, [some "option"]⟩]
    "dist" false (by decide)

/-- Claim C6: expanding the single-element matrix `{("1.0.0", ("option",))}`
with base path `"dist"` and `full_version_path = false` yields exactly one
`(element, Image)` pair, with path `"dist/1.0/option"` and tag set
`{"1.0.0-option", "1-option", "1.0-option"}` (the element is the latest in its
major and minor lines). -/
theorem claim_C6_scenario_d :
    (create_build_matrix [("1.0.0", [some "option"])]).map
        (fun m => m.build "dist" false)
      = some [(⟨⟨1, 0, 0, none, none⟩, [some "option"]⟩,
               ⟨{"1.0.0-option", "1-option", "1.0-option"}, "dist/1.0/option"⟩)] := by
  decide

/-- Claim C9: with `full_version_path = false`, the path's version segment is
the bare `"major.minor"` string (prerelease and build omitted); for a
prerelease element this segment differs from its (prerelease-qualified) minor
alias label; and any two versions sharing major and minor share the segment. -/
theorem claim_C9_bare_minor_path (latest : List (String × List String))
    (basePath : String) (b : ImageBuild) (p : String)
    (hp : b.version.prerelease = some p) :
    (buildImage latest basePath false b).path
      = ospathJoin basePath
          (String.intercalate "/" (bareMinorString b.version :: b.filter_options))
    ∧ bareMinorString b.version ≠ format_minor_version b.version
    ∧ ∀ w : VersionInfo, w.major = b.version.major → w.minor = b.version.minor →
        bareMinorString w = bareMinorString b.version := by
  refine ⟨rfl, ?_, ?_⟩
  · intro he
    have hbm : (bareMinorString b.version).data
        = (natToDigits b.version.major ++ ['.']) ++ natToDigits b.version.minor := by
      unfold bareMinorString natToString
      rw [String.data_append, String.data_append]
    have hml : (format_minor_version b.version).data = minorLabelChars b.version := rfl
    have hdata := congrArg String.data he
    rw [hbm, hml] at hdata
    unfold minorLabelChars at hdata
    have hlen := congrArg List.length hdata
    simp only [List.length_append, List.length_cons, List.length_singleton,
      List.length_nil] at hlen
    have hsuf : 1 ≤ (labelSufChars b.version).length :=
      List.length_pos.mpr (List.ne_nil_of_mem (dash_mem_labelSuf hp))
    omega
  · intro w h1 h2
    unfold bareMinorString
    rw [h1, h2]

theorem claim_C9_witness :
    (buildImage [] "dist" false ⟨⟨1, 2, 3, some "beta", none⟩, [some "alpine"]⟩).path
        = ospathJoin "dist" (String.intercalate "/"
            (bareMinorString ⟨1, 2, 3, some "beta", none⟩
              :: ImageBuild.filter_options ⟨⟨1, 2, 3, some "beta", none⟩, [some "alpine"]⟩))
      ∧ bareMinorString ⟨1, 2, 3, some "beta", none⟩
          ≠ format_minor_version ⟨1, 2, 3, some "beta", none⟩
      ∧ ∀ w : VersionInfo, w.major = 1 → w.minor = 2 →
          bareMinorString w = bareMinorString ⟨1, 2, 3, some "beta", none⟩ :=
  claim_C9_bare_minor_path [] "dist" ⟨⟨1, 2, 3, some "beta", none⟩, [some "alpine"]⟩
    "beta" rfl

/-- Claim C4 counterexample: `ImageBuild` defines no `__eq__`/`__hash__`, so
Python set membership for it is object identity; adding two separately
constructed builds with equal `(version, options)` to a set yields two
members, not one — the claimed structural collapse does not happen. -/
theorem claim_C4_counterexample :
    pyAddFreshBuild (pyAddFreshBuild [] ⟨⟨1, 0, 0, none, none⟩, [some "option"]⟩)
        ⟨⟨1, 0, 0, none, none⟩, [some "option"]⟩
      = [⟨⟨1, 0, 0, none, none⟩, [some "option"]⟩, ⟨⟨1, 0, 0, none, none⟩, [some "option"]⟩]
    ∧ (pyAddFreshBuild (pyAddFreshBuild [] ⟨⟨1, 0, 0, none, none⟩, [some "option"]⟩)
        ⟨⟨1, 0, 0, none, none⟩, [some "option"]⟩).length ≠ 1 := by
  decide

/-- Claim C4 (amended): `ImageBuild` set membership is identity-based, so
equal-valued builds do not collapse inside a set; however `create_build_matrix`
consumes a structural set of `(version string, options)` tuples, so a matrix
built from it contains exactly one build per distinct input pair and no two
builds of the matrix share `(version, options)`; distinct pairs stay distinct. -/
theorem claim_C4_no_duplicate_builds (input : List (String × List (Option String)))
    (m : BuildMatrix) (hnodup : input.Nodup) (hm : create_build_matrix input = some m) :
    m.builds.Nodup ∧ m.builds.length = input.length := by
  obtain ⟨cand, hbuilds, _, _⟩ := create_build_matrix_some hm
  obtain ⟨hlen, _, hnd⟩ := parseBuilds_spec input m.builds hbuilds
  exact ⟨hnd hnodup, hlen⟩

theorem claim_C4_witness :
    ([⟨⟨1, 0, 0, none, none⟩, [some "a"]⟩, ⟨⟨1, 0, 1, none, none⟩, []⟩]
        : List ImageBuild).Nodup
      ∧ ([⟨⟨1, 0, 0, none, none⟩, [some "a"]⟩, ⟨⟨1, 0, 1, none, none⟩, []⟩]
        : List ImageBuild).length = 2 := by
  have h := claim_C4_no_duplicate_builds [("1.0.0", [some "a"]), ("1.0.1", [])]
    ⟨[⟨⟨1, 0, 0, none, none⟩, [some "a"]⟩, ⟨⟨1, 0, 1, none, none⟩, []⟩],
      [("1.0.1", ["1", "1.0"])]⟩ (by decide) (by decide)
  exact h

/-- Claim C10: after construction, the label sets stored under distinct
version-string keys of `latest` are pairwise disjoint, and every alias label
computed for some element of the matrix appears in the label set of exactly
one key. -/
theorem claim_C10_latest_partition (bs : List ImageBuild)
    (cand : List (String × String)) (hcand : computeCandidates bs = some cand) :
    (∀ K1 K2 ls1 ls2, lookupLatest (rehash cand) K1 = some ls1 →
      lookupLatest (rehash cand) K2 = some ls2 → K1 ≠ K2 →
      ∀ l ∈ ls1, l ∉ ls2)
    ∧ (∀ b ∈ bs, ∀ L, touchesLabel L b →
        ∃ K, latestAssigns (rehash cand) L K
          ∧ ∀ K', latestAssigns (rehash cand) L K' → K' = K) := by
  have hnd := computeCandidates_keys_nodup hcand
  constructor
  · intro K1 K2 ls1 ls2 h1 h2 hne l hl1 hl2
    have m1 : (l, K1) ∈ cand := latestAssigns_rehash.mp ⟨ls1, h1, hl1⟩
    have m2 : (l, K2) ∈ cand := latestAssigns_rehash.mp ⟨ls2, h2, hl2⟩
    exact hne (nodup_keys_unique hnd m1 m2)
  · intro b hb L htL
    obtain ⟨V, hV⟩ := candFold_touch L bs none ⟨b, hb, htL⟩
    have halg : alGet cand L = some V := by
      rw [computeCandidates_alGet hcand L]
      exact hV
    have hmem : (L, V) ∈ cand := alGet_mem halg
    refine ⟨V, latestAssigns_rehash.mpr hmem, ?_⟩
    intro K' hK'
    exact nodup_keys_unique hnd (latestAssigns_rehash.mp hK') hmem

theorem claim_C10_witness : "1" ∉ (["1.0"] : List String) :=
  (claim_C10_latest_partition
      [⟨⟨1, 0, 0, none, none⟩, []⟩, ⟨⟨1, 1, 0, none, none⟩, []⟩]
      [("1", "1.1.0"), ("1.0", "1.0.0"), ("1.1", "1.1.0")] (by decide)).1
    "1.1.0" "1.0.0" ["1", "1.1"] ["1.0"] (by decide) (by decide) (by decide) "1" (by decide)

/-- Claim C2: a prerelease version's major/minor alias labels are
prerelease-qualified; consequently no prerelease version is ever assigned a
bare (suffix-free) major or minor alias label in `latest`, and a prerelease
build competes for an alias only against builds with the identical prerelease
string. -/
theorem claim_C2_prerelease_buckets (bs : List ImageBuild)
    (cand : List (String × String)) (b : ImageBuild) (p : String)
    (hval : ∀ x ∈ bs, validVersionB x.version = true)
    (hcand : computeCandidates bs = some cand)
    (hb : b ∈ bs) (hp : b.version.prerelease = some p) :
    (format_major_version b.version
        = String.mk (natToDigits b.version.major ++ ('-' :: p.data) ++ buildSufChars b.version)
      ∧ format_minor_version b.version
        = String.mk (natToDigits b.version.major ++ ('.' :: natToDigits b.version.minor)
            ++ ('-' :: p.data) ++ buildSufChars b.version))
    ∧ (∀ L K, '-' ∉ L.data → '+' ∉ L.data → latestAssigns (rehash cand) L K →
        K ≠ format_version b.version)
    ∧ (∀ b' ∈ bs, ∀ L, touchesLabel L b → touchesLabel L b' →
        b'.version.prerelease = some p) := by
  have hps : preSufChars b.version = '-' :: p.data := by
    unfold preSufChars
    rw [hp]
    rfl
  refine ⟨⟨?_, ?_⟩, ?_, ?_⟩
  · show String.mk (majorLabelChars b.version) = _
    unfold majorLabelChars labelSufChars
    rw [hps]
    congr 1
    rw [List.append_assoc]
  · show String.mk (minorLabelChars b.version) = _
    unfold minorLabelChars labelSufChars
    rw [hps]
    congr 1
    simp [List.append_assoc]
  · intro L K hd hplus hassign hKeq
    have hmem : (L, K) ∈ cand := latestAssigns_rehash.mp hassign
    have halg : alGet cand L = some K := mem_alGet (computeCandidates_keys_nodup hcand) hmem
    rw [computeCandidates_alGet hcand L] at halg
    rcases candFold_provenance L bs none K halg with h0 | h0 | ⟨b2, hb2, ht2, he2⟩
    · exact Option.noConfusion h0
    · have hfmt : format_version b.version = "0.0.0" := hKeq.symm.trans h0
      have hdash := dash_mem_format hp
      rw [hfmt] at hdash
      exact absurd hdash (by decide)
    · have hstable := @bare_label_stable b2.version _ ht2 hd hplus
      have hveq : b2.version = b.version :=
        format_version_inj (hval b2 hb2) (hval b hb) (he2.trans hKeq)
      rw [hveq] at hstable
      rw [hstable.1] at hp
      exact Option.noConfusion hp
  · intro b' hb' L htb htb'
    have h := touchers_same_pre (hval b' hb') (hval b hb) htb' htb
    exact h.trans hp

theorem claim_C2_witness :
    ("1.0.0" : String) ≠ format_version ⟨1, 0, 0, some "beta", none⟩ :=
  (claim_C2_prerelease_buckets
      [⟨⟨1, 0, 0, some "beta", none⟩, []⟩, ⟨⟨1, 0, 0, none, none⟩, []⟩]
      [("1-beta", "1.0.0-beta"), ("1.0-beta", "1.0.0-beta"), ("1", "1.0.0"), ("1.0", "1.0.0")]
      ⟨⟨1, 0, 0, some "beta", none⟩, []⟩ "beta" (by decide) (by decide)
      (by decide) rfl).2.1 "1" "1.0.0" (by decide) (by decide)
    ⟨["1", "1.0"], by decide, by decide⟩

/-- Claim C1 counterexample: for the single-element matrix
`{("0.0.0-beta", ())}`, the `"0.0.0"` seed of the fold wins the `0-beta` /
`0.0-beta` buckets, so `latest` assigns both labels to `"0.0.0"`, which is not
the (semver-)maximum of the bucket `"0.0.0-beta"` and not the formatted
version of any element of the matrix. -/
theorem claim_C1_counterexample :
    (create_build_matrix [("0.0.0-beta", [])]).map (fun m => m.latest)
        = some [("0.0.0", ["0-beta", "0.0-beta"])]
      ∧ format_major_version ⟨0, 0, 0, some "beta", none⟩ = "0-beta"
      ∧ format_version ⟨0, 0, 0, some "beta", none⟩ ≠ "0.0.0" := by
  decide

/-- Claim C1 (amended): provided no element is a prerelease/build variant of
version 0.0.0 (for such elements the fold's `"0.0.0"` seed wins the bucket),
for every label `L` carried by some element, `latest` assigns `L` to exactly
one version string — the formatted version of a bucket element that is
maximal under semver comparison among all elements competing for `L` — and
every key of `latest` is the formatted version of some element. -/
theorem claim_C1_latest_is_line_max (bs : List ImageBuild)
    (cand : List (String × String)) (L : String)
    (hval : ∀ x ∈ bs, validVersionB x.version = true)
    (hseed : ∀ x ∈ bs, seedOkB x)
    (hcand : computeCandidates bs = some cand)
    (hL : ∃ b ∈ bs, touchesLabel L b) :
    (∃ bm, bm ∈ bs ∧ touchesLabel L bm
      ∧ latestAssigns (rehash cand) L bm.get_formatted_version
      ∧ (∀ K, latestAssigns (rehash cand) L K → K = bm.get_formatted_version)
      ∧ ∀ b ∈ bs, touchesLabel L b →
          vcompare bm.version b.version = 0 ∨ vcompare bm.version b.version = 1)
    ∧ ∀ K ls, lookupLatest (rehash cand) K = some ls →
        ∃ b ∈ bs, b.get_formatted_version = K := by
  have hnd := computeCandidates_keys_nodup hcand
  constructor
  · obtain ⟨bm, hbm, htm, hfold, hmax⟩ := candFold_max L bs hval hseed hL
    have halg : alGet cand L = some bm.get_formatted_version := by
      rw [computeCandidates_alGet hcand L]
      exact hfold
    have hmem : (L, bm.get_formatted_version) ∈ cand := alGet_mem halg
    refine ⟨bm, hbm, htm, latestAssigns_rehash.mpr hmem, ?_, ?_⟩
    · intro K hK
      exact nodup_keys_unique hnd (latestAssigns_rehash.mp hK) hmem
    · intro b hb htb
      have hle := hmax b hb htb
      have hpre : bm.version.prerelease = b.version.prerelease :=
        touchers_same_pre (hval bm hbm) (hval b hb) htm htb
      rw [vcompare_same_pre hpre]
      rcases tripleCmp_char bm.version b.version with ⟨e, hl⟩ | ⟨e, _⟩ | ⟨e, _⟩
      · exfalso
        rcases tripleLe_iff.mp hle with hlt | heq2
        · exact tripleLt_asymm hlt hl
        · unfold tripleLt at hl
          unfold tripleEq at heq2
          omega
      · exact Or.inl e
      · exact Or.inr e
  · intro K ls hK
    obtain ⟨l, hlK⟩ := latest_key_has_label hK
    have halg : alGet cand l = some K := mem_alGet hnd hlK
    rw [computeCandidates_alGet hcand l] at halg
    have htl : ∃ x ∈ bs, touchesLabel l x := by
      by_contra hno
      push_neg at hno
      rw [candFold_none l bs hno] at halg
      exact Option.noConfusion halg
    obtain ⟨bm, hbm, _, hfold, _⟩ := candFold_max l bs hval hseed htl
    have hKeq : K = bm.get_formatted_version := Option.some_inj.mp (halg.symm.trans hfold)
    exact ⟨bm, hbm, hKeq.symm⟩

theorem claim_C1_witness :
    latestAssigns (rehash [("1", "1.1.0"), ("1.0", "1.0.0"), ("1.1", "1.1.0")]) "1" "1.1.0" := by
  obtain ⟨⟨bm, hbm, htm, hassign, huniq, hmax⟩, hkeys⟩ := claim_C1_latest_is_line_max
    [⟨⟨1, 0, 0, none, none⟩, []⟩, ⟨⟨1, 1, 0, none, none⟩, []⟩]
    [("1", "1.1.0"), ("1.0", "1.0.0"), ("1.1", "1.1.0")] "1"
    (by decide) (by decide) (by decide)
    ⟨⟨⟨1, 1, 0, none, none⟩, []⟩, by decide, Or.inl (by decide)⟩
  have h2 := hmax ⟨⟨1, 1, 0, none, none⟩, []⟩ (by decide) (Or.inl (by decide))
  rcases List.mem_pair.mp hbm with h | h
  · exfalso
    rw [h] at h2
    revert h2
    decide
  · rw [h] at hassign
    exact hassign

/-- Claim C3 counterexample: in the matrix
`{("0.0.0", ()), ("0.0.1", ()), ("0.0.0-beta", ())}` the element `0.0.0` is
not the maximum of its major line `"0"` or minor line `"0.0"` (`0.0.1` wins
both), yet its image carries three tags — its own plus the `0-beta` /
`0.0-beta` aliases stolen via the `"0.0.0"` seed — not exactly one. -/
theorem claim_C3_counterexample :
    (create_build_matrix [("0.0.0", []), ("0.0.1", []), ("0.0.0-beta", [])]).map
        (fun m => (m.build "dist" false).map (fun pr => (pr.1, pr.2.tags)))
      = some [(⟨⟨0, 0, 0, none, none⟩, []⟩, {"0.0.0", "0-beta", "0.0-beta"}),
              (⟨⟨0, 0, 1, none, none⟩, []⟩, {"0.0.1", "0", "0.0"}),
              (⟨⟨0, 0, 0, some "beta", none⟩, []⟩, {"0.0.0-beta"})]
    ∧ format_major_version ⟨0, 0, 1, none, none⟩ = format_major_version ⟨0, 0, 0, none, none⟩
    ∧ format_minor_version ⟨0, 0, 1, none, none⟩ = format_minor_version ⟨0, 0, 0, none, none⟩
    ∧ vcompare ⟨0, 0, 1, none, none⟩ ⟨0, 0, 0, none, none⟩ = 1
    ∧ ({"0.0.0", "0-beta", "0.0-beta"} : Finset String).card ≠ 1 := by
  decide

/-- Claim C3 (amended): provided no element is a prerelease/build variant of
version 0.0.0, an element that is strictly beaten in both its major and minor
lines receives exactly one tag — the one built from its own formatted version
joined with its non-absent options; no alias tags. -/
theorem claim_C3_non_max_single_tag (bs : List ImageBuild) (cand : List (String × String))
    (b : ImageBuild) (basePath : String) (full : Bool)
    (hval : ∀ x ∈ bs, validVersionB x.version = true)
    (hseed : ∀ x ∈ bs, seedOkB x)
    (hcand : computeCandidates bs = some cand)
    (hb : b ∈ bs)
    (hmaj : ∃ b' ∈ bs, format_major_version b'.version = format_major_version b.version
      ∧ vcompare b'.version b.version = 1)
    (hmin : ∃ b' ∈ bs, format_minor_version b'.version = format_minor_version b.version
      ∧ vcompare b'.version b.version = 1) :
    (buildImage (rehash cand) basePath full b).tags
      = {joinTag b.get_formatted_version b} := by
  have hkey : lookupLatest (rehash cand) b.get_formatted_version = none := by
    match hlk : lookupLatest (rehash cand) b.get_formatted_version with
    | none => rfl
    | some ls =>
      exfalso
      obtain ⟨l, hlmem⟩ := latest_key_has_label hlk
      have hnd := computeCandidates_keys_nodup hcand
      have halg : alGet cand l = some b.get_formatted_version := mem_alGet hnd hlmem
      rw [computeCandidates_alGet hcand l] at halg
      have htl : ∃ x ∈ bs, touchesLabel l x := by
        by_contra hno
        push_neg at hno
        rw [candFold_none l bs hno] at halg
        exact Option.noConfusion halg
      obtain ⟨bm, hbm, htm, hfold, hmax⟩ := candFold_max l bs hval hseed htl
      have hKeq : b.get_formatted_version = bm.get_formatted_version :=
        Option.some_inj.mp (halg.symm.trans hfold)
      have hveq : b.version = bm.version :=
        format_version_inj (hval b hb) (hval bm hbm) hKeq
      have htb : touchesLabel l b := by
        unfold touchesLabel at htm ⊢
        rw [hveq]
        exact htm
      rcases htb with hl | hl
      · obtain ⟨b', hb', heq', hgt'⟩ := hmaj
        have htb' : touchesLabel l b' := Or.inl (by rw [heq', hl])
        have hle := hmax b' hb' htb'
        have hpre : b'.version.prerelease = b.version.prerelease :=
          (major_label_inj (hval b' hb') (hval b hb) heq').2.1
        rw [vcompare_same_pre hpre] at hgt'
        have hlt : tripleLt b.version b'.version := tripleLt_of_tripleCmp_one hgt'
        rw [← hveq] at hle
        rcases tripleLe_iff.mp hle with h2 | h2
        · exact tripleLt_asymm hlt h2
        · unfold tripleLt at hlt
          unfold tripleEq at h2
          omega
      · obtain ⟨b', hb', heq', hgt'⟩ := hmin
        have htb' : touchesLabel l b' := Or.inr (by rw [heq', hl])
        have hle := hmax b' hb' htb'
        have hpre : b'.version.prerelease = b.version.prerelease :=
          (minor_label_inj (hval b' hb') (hval b hb) heq').2.2.1
        rw [vcompare_same_pre hpre] at hgt'
        have hlt : tripleLt b.version b'.version := tripleLt_of_tripleCmp_one hgt'
        rw [← hveq] at hle
        rcases tripleLe_iff.mp hle with h2 | h2
        · exact tripleLt_asymm hlt h2
        · unfold tripleLt at hlt
          unfold tripleEq at h2
          omega
  simp only [buildImage, hkey]
  exact Finset.image_singleton _ _

theorem claim_C3_witness :
    (buildImage (rehash [("1", "1.1.0"), ("1.0", "1.0.1"), ("1.1", "1.1.0")]) "dist" false
        ⟨⟨1, 0, 0, none, none⟩, []⟩).tags
      = {joinTag (ImageBuild.get_formatted_version ⟨⟨1, 0, 0, none, none⟩, []⟩)
          ⟨⟨1, 0, 0, none, none⟩, []⟩} :=
  claim_C3_non_max_single_tag
    [⟨⟨1, 0, 0, none, none⟩, []⟩, ⟨⟨1, 0, 1, none, none⟩, []⟩, ⟨⟨1, 1, 0, none, none⟩, []⟩]
    [("1", "1.1.0"), ("1.0", "1.0.1"), ("1.1", "1.1.0")]
    ⟨⟨1, 0, 0, none, none⟩, []⟩ "dist" false
    (by decide) (by decide) (by decide) (by decide)
    ⟨⟨⟨1, 1, 0, none, none⟩, []⟩, by decide, by decide, by decide⟩
    ⟨⟨⟨1, 0, 1, none, none⟩, []⟩, by decide, by decide, by decide⟩

end Dockermatrix
